import Mathlib

/-!
# Verification of the SwiftAzureOpenAI code-generation pipeline

Shallow embedding of the three Python scripts of the repository:

* `Scripts/prune-openapi-spec.py`    — reachability pruning of an OpenAPI document,
* `Scripts/generate-swift-models.py` — compilation of schemas to Swift declarations,
* `Scripts/classify-model-changes.py`— snapshot parsing and semantic diff classification.

Modelling conventions:

* JSON documents are modelled by the inductive `Json`; Python `dict`s become
  association lists in insertion order (Python dicts preserve insertion order and
  have unique keys; lookup is modelled as first-match).
* Python strings are Lean `String`s; every string operation is implemented over
  `String.data` (`List Char`) so that everything reduces in the kernel.
* Python's Unicode-aware `str.lower`, `str.isalnum`, `str.isdigit` etc. are
  modelled by their ASCII restrictions (`Char.toLower`, ASCII alphanumeric tests).
  All theorems below therefore speak about documents whose relevant strings are
  ASCII, which the claims' quantifiers are restricted to where it matters.
* Python `str.splitlines` is modelled as splitting on `'\n'` alone (with the final
  empty fragment dropped, as Python does); the extra Unicode line separators that
  Python also splits on are excluded by the well-formedness hypotheses used below.
* Dead branches in which the Python code would raise (e.g. calling `.get` on a
  non-dict) are given harmless default values and marked by comments; all theorems
  quantify over inputs that do not reach those branches.
-/

namespace SAO

/-- JSON values; `obj` keeps fields in insertion order like a Python dict. -/
inductive Json where
  | null
  | bool (b : Bool)
  | num (n : Int)
  | str (s : String)
  | arr (items : List Json)
  | obj (fields : List (String × Json))

/-- First-match association-list lookup, modelling Python dict indexing
(Python dicts have unique keys, so first-match agrees with dict semantics). -/
def jLookup : List (String × Json) → String → Option Json
  | [], _ => none
  | (k, v) :: rest, key => if k = key then some v else jLookup rest key

/-- Python `key in dict`. -/
def jHasKey (fields : List (String × Json)) (key : String) : Bool :=
  fields.any (fun kv => kv.1 = key)

/-- The fields of a JSON object; `[]` for any other value.  (Python code reaching
this on a non-dict would raise; such inputs are excluded by hypotheses.) -/
def jFields : Json → List (String × Json)
  | Json.obj fields => fields
  | _ => []

/-- The items of a JSON array; `[]` for any other value (dead branch, see `jFields`). -/
def jItems : Json → List Json
  | Json.arr items => items
  | _ => []

/-- The string payload of a JSON string; `""` for any other value (dead branch). -/
def jStr : Json → String
  | Json.str s => s
  | _ => ""

/-- `d.get(key, default)` composed twice: `spec.get(a, {}).get(b, {})` as fields. -/
def jFields2 (spec : Json) (a b : String) : List (String × Json) :=
  match jLookup (jFields spec) a with
  | some v => match jLookup (jFields v) b with
    | some w => jFields w
    | none => []
  | none => []

/-! ## Character/string primitives (ASCII models of the Python primitives) -/

/-- ASCII model of Python `str.isalnum` on one character. -/
def pyIsAlnum (c : Char) : Bool := c.isAlpha || c.isDigit

/-- A character of the regex class `[A-Za-z0-9_]`. -/
def identChar (c : Char) : Bool := c.isAlpha || c.isDigit || c = '_'

/-- Whitespace as matched by `\s` inside a single line (no `'\n'`, which cannot
occur after splitting into lines). -/
def pySpaceChar (c : Char) : Bool :=
  c = ' ' || c = '\t' || c = '\r' || c = '\x0b' || c = '\x0c'

/-- Characters whose presence in an emitted token would break line/brace structure:
line separators Python's `splitlines` splits on, and the two brace characters
tracked by the snapshot parser. -/
def safeTextChar (c : Char) : Bool :=
  !(c = '\n' || c = '\r' || c = '\x0b' || c = '\x0c' ||
    c = '\x1c' || c = '\x1d' || c = '\x1e' || c = '\x85' ||
    c = '\u2028' || c = '\u2029' || c = '\x7b' || c = '\x7d')

/-- ASCII model of Python `str.lower`. -/
def pyLower (s : String) : String := String.mk (s.data.map Char.toLower)

/-- Is `pat` a prefix of `cs`? -/
def isPfx : List Char → List Char → Bool
  | [], _ => true
  | _ :: _, [] => false
  | p :: ps, c :: cs => p = c && isPfx ps cs

/-- One step of Python `str.replace`: fuel-indexed so that it is structural
(the fuel is the length of the scanned list, see `pyReplace`). -/
def replChars (pat rep : List Char) : Nat → List Char → List Char
  | _, [] => []
  | 0, cs => cs
  | fuel + 1, c :: cs =>
    if pat ≠ [] && isPfx pat (c :: cs) then
      rep ++ replChars pat rep fuel ((c :: cs).drop pat.length)
    else
      c :: replChars pat rep fuel cs

/-- Python `s.replace(pat, rep)`: replace all non-overlapping occurrences, left to
right.  (Python's behaviour for an empty pattern is never exercised by the
scripts, whose patterns are all non-empty literals.) -/
def pyReplace (s pat rep : String) : String :=
  String.mk (replChars pat.data rep.data s.data.length s.data)

/-- Python `pat in s` (substring containment). -/
def containsSub (s pat : String) : Bool :=
  let rec go : List Char → Bool
    | [] => isPfx pat.data []
    | c :: cs => isPfx pat.data (c :: cs) || go cs
  go s.data

/-- Python `s.startswith(pat)`. -/
def py_startswith (s pat : String) : Bool := isPfx pat.data s.data

/-- Python `c in s` for a single character. -/
def containsChar (s : String) (c : Char) : Bool := s.data.any (fun d => d = c)

/-- Python `s.strip()` (whitespace model restricted to intra-line whitespace;
the parser only ever strips single lines). -/
def pyStrip (s : String) : String :=
  String.mk (((s.data.dropWhile pySpaceChar).reverse.dropWhile pySpaceChar).reverse)

/-- Python `'\n'.join(lines)`. -/
def join_nl : List String → String
  | [] => ""
  | [s] => s
  | s :: rest => s ++ "\n" ++ join_nl rest

/-- Split a character list at every `'\n'`.  Always returns a non-empty list. -/
def splitNlChars : List Char → List (List Char)
  | [] => [[]]
  | c :: cs =>
    if c = '\n' then [] :: splitNlChars cs
    else
      match splitNlChars cs with
      | [] => [[c]]
      | r :: rs => (c :: r) :: rs

/-- Python `text.splitlines()` restricted to `'\n'`: split on newlines and drop
the final fragment when it is empty. -/
def pySplitlines (text : String) : List String :=
  (if (splitNlChars text.data).getLast? = some [] then
    (splitNlChars text.data).dropLast
  else splitNlChars text.data).map String.mk

/-- Code-point comparison of strings, the order Python uses to `sort` them. -/
def strLtChars : List Char → List Char → Bool
  | [], [] => false
  | [], _ :: _ => true
  | _ :: _, [] => false
  | a :: as_, b :: bs => if a.val = b.val then strLtChars as_ bs else a.val < b.val

/-- Python `a < b` on strings. -/
def pyStrLt (a b : String) : Bool := strLtChars a.data b.data

/-- Insertion into an ascending list. -/
def insertSorted (s : String) : List String → List String
  | [] => [s]
  | t :: ts => if pyStrLt s t then s :: t :: ts else t :: insertSorted s ts

/-- Python `sorted(...)` for lists of strings. -/
def sortStr (l : List String) : List String := l.foldr insertSorted []

/-- Python `sorted(set(...))`: sort the distinct elements. -/
def sortedSet (l : List String) : List String := sortStr l.dedup

/-- Python dict assignment `d[k] = v` on an association list: replace in place,
or append when the key is new. -/
def dictInsert {α : Type} : List (String × α) → String → α → List (String × α)
  | [], k, v => [(k, v)]
  | (k', v') :: rest, k, v =>
    if k' = k then (k, v) :: rest else (k', v') :: dictInsert rest k v

/-- Python `set.add` on a set modelled as a duplicate-free list in insertion order. -/
def addSet (r : List String) (x : String) : List String :=
  if x ∈ r then r else r ++ [x]

end SAO

namespace SAO

/-! ## `classify-model-changes.py`: the Snapshot Parser -/

/-- Skip the regex `\s*` . -/
def dropSpaces (cs : List Char) : List Char := cs.dropWhile pySpaceChar

/-- Match a literal, returning the rest. -/
def litChars : List Char → List Char → Option (List Char)
  | [], cs => some cs
  | _ :: _, [] => none
  | p :: ps, c :: cs => if p = c then litChars ps cs else none

/-- The regex `\s+`: at least one whitespace character. -/
def spaces1 : List Char → Option (List Char)
  | [] => none
  | c :: cs => if pySpaceChar c then some (cs.dropWhile pySpaceChar) else none

/-- Greedy `([A-Za-z0-9_]+)`: the captured identifier and the rest. -/
def takeIdent (cs : List Char) : List Char × List Char :=
  (cs.takeWhile identChar, cs.dropWhile identChar)

/-- `TYPE_PATTERN_STRUCT.match(line)`, the regex `^\s*public\s+struct\s+([A-Za-z0-9_]+)`:
the captured group when the pattern matches at the start of the line.  The greedy
identifier capture needs no backtracking: nothing follows it in the pattern. -/
def match_struct_head (line : String) : Option String :=
  match litChars "public".data (dropSpaces line.data) with
  | none => none
  | some r1 =>
    match spaces1 r1 with
    | none => none
    | some r2 =>
      match litChars "struct".data r2 with
      | none => none
      | some r3 =>
        match spaces1 r3 with
        | none => none
        | some r4 =>
          match takeIdent r4 with
          | ([], _) => none
          | (n :: ns, _) => some (String.mk (n :: ns))

/-- `TYPE_PATTERN_ENUM.match(line)`, the regex `^\s*public\s+enum\s+([A-Za-z0-9_]+)`. -/
def match_enum_head (line : String) : Option String :=
  match litChars "public".data (dropSpaces line.data) with
  | none => none
  | some r1 =>
    match spaces1 r1 with
    | none => none
    | some r2 =>
      match litChars "enum".data r2 with
      | none => none
      | some r3 =>
        match spaces1 r3 with
        | none => none
        | some r4 =>
          match takeIdent r4 with
          | ([], _) => none
          | (n :: ns, _) => some (String.mk (n :: ns))

/-- The tail test of the optional group `(?:\s*//.*)?$`: the remainder is empty or
is whitespace followed by a `//` comment. -/
def commentOrEnd (cs : List Char) : Bool :=
  match dropSpaces cs with
  | [] => true
  | c :: cs' => c = '/' && (match cs' with
    | c' :: _ => c' = '/'
    | [] => false)

/-- The lazy group `([^=]+?)` of `PROP_PATTERN` followed by `(?:\s*//.*)?$`: the
shortest non-empty `'='`-free prefix whose remainder is empty or a comment.
Laziness is modelled by trying the shortest split first. -/
def lazyTypeGroup : List Char → Option (List Char)
  | [] => none
  | c :: rest =>
    if c = '=' then none
    else if commentOrEnd rest then some [c]
    else match lazyTypeGroup rest with
      | some p => some (c :: p)
      | none => none

/-- `PROP_PATTERN.match(b)` for an already-stripped body line `b`, the regex
`^\s*public\s+let\s+([A-Za-z0-9_]+)\s*:\s*([^=]+?)(?:\s*//.*)?$`, returning the
two captured groups.  As with `match_struct_head`, greedy pieces need no
backtracking here: shrinking the identifier leaves an identifier character where
`\s*:` must match, and on stripped input shrinking the `\s*` after the colon
only prepends spaces to a group that is stripped afterwards anyway. -/
def match_prop (line : String) : Option (String × String) :=
  match litChars "public".data (dropSpaces line.data) with
  | none => none
  | some r1 =>
    match spaces1 r1 with
    | none => none
    | some r2 =>
      match litChars "let".data r2 with
      | none => none
      | some r3 =>
        match spaces1 r3 with
        | none => none
        | some r4 =>
          match takeIdent r4 with
          | ([], _) => none
          | (n :: ns, r5) =>
            match dropSpaces r5 with
            | ':' :: r6 =>
              match lazyTypeGroup (dropSpaces r6) with
              | some ty => some (String.mk (n :: ns), String.mk ty)
              | none => none
            | _ => none

/-- `ENUM_CASE_PATTERN.match(b)`, the regex `^\s*case\s+([A-Za-z0-9_]+)`. -/
def match_case (line : String) : Option String :=
  match litChars "case".data (dropSpaces line.data) with
  | none => none
  | some r1 =>
    match spaces1 r1 with
    | none => none
    | some r2 =>
      match takeIdent r2 with
      | ([], _) => none
      | (n :: ns, _) => some (String.mk (n :: ns))

/-- `line.count('{') - line.count('}')` as an integer. -/
def braceDelta (line : String) : Int :=
  (line.data.count '\x7b' : Int) - (line.data.count '\x7d' : Int)

/-- A parsed snapshot entry: `{'kind': 'struct', 'properties': …}` or
`{'kind': 'enum', 'cases': …}`. -/
inductive ParsedType where
  | struct (properties : List (String × String))
  | enum (cases : List String)
  deriving DecidableEq, Repr

/-- The body scan of `parse_models` for a struct: collect `public let` properties
into a dict (`props[prop_name] = prop_type`, the type group stripped). -/
def structOfBody (body : List String) : ParsedType :=
  ParsedType.struct (body.foldl
    (fun props b =>
      match match_prop (pyStrip b) with
      | some (n, t) => dictInsert props n (pyStrip t)
      | none => props)
    [])

/-- The body scan of `parse_models` for an enum: collect the case identifiers
into a set and store them sorted. -/
def enumOfBody (body : List String) : ParsedType :=
  ParsedType.enum (sortedSet (body.filterMap (fun b => match_case (pyStrip b))))

/-- The state of the line scanner of `parse_models`: between declarations, or
inside the body of a declaration (`isStruct`, `name`, current brace depth,
collected body lines in order). -/
inductive ParseState where
  | top
  | body (isStruct : Bool) (name : String) (depth : Int) (acc : List String)

/-- Register one collected declaration in the type dict. -/
def registerDecl (types : List (String × ParsedType)) (isStruct : Bool)
    (name : String) (acc : List String) : List (String × ParsedType) :=
  dictInsert types name (if isStruct then structOfBody acc.reverse else enumOfBody acc.reverse)

/-- One line of the scanner of `parse_models`.  At a declaration head the
initial depth counts the braces of the head line only when it contains `'{'`;
each body line is appended and then the depth test `<= 0` decides whether the
declaration is complete. -/
def parse_step (line : String) (st : ParseState) (types : List (String × ParsedType)) :
    ParseState × List (String × ParsedType) :=
  match st with
  | ParseState.top =>
    match match_struct_head line with
    | some name =>
      (ParseState.body true name
        (if containsChar line '\x7b' then braceDelta line else 0) [], types)
    | none =>
      match match_enum_head line with
      | some name =>
        (ParseState.body false name
          (if containsChar line '\x7b' then braceDelta line else 0) [], types)
      | none => (ParseState.top, types)
  | ParseState.body isStruct name depth acc =>
    if depth + braceDelta line ≤ 0 then
      (ParseState.top, registerDecl types isStruct name (line :: acc))
    else
      (ParseState.body isStruct name (depth + braceDelta line) (line :: acc), types)

/-- End of input: a body still open when the lines run out is registered as-is,
as in the Python. -/
def parse_finalize (st : ParseState) (types : List (String × ParsedType)) :
    List (String × ParsedType) :=
  match st with
  | ParseState.top => types
  | ParseState.body isStruct name _ acc => registerDecl types isStruct name acc

/-- The nested `while` loops of `parse_models` as a line-at-a-time state machine. -/
def parse_go : List String → ParseState → List (String × ParsedType) → List (String × ParsedType)
  | [], st, types => parse_finalize st types
  | line :: rest, st, types =>
    parse_go rest (parse_step line st types).1 (parse_step line st types).2

/-- `parse_models(text)`: the mapping from type name to parsed shape. -/
def parse_models (text : String) : List (String × ParsedType) :=
  parse_go (pySplitlines text) ParseState.top []

/-! ## `classify-model-changes.py`: the Diff Classifier -/

/-- The result dict of `compare` (the unreported local `changed` list is omitted:
it does not feed the returned dict). -/
structure DiffResult where
  added_types : List String
  removed_types : List String
  changed_type_kind : List String
  added_members : List String
  removed_members : List String
  semver : String
  deriving DecidableEq, Repr

/-- First-match association-list lookup (dict indexing, as in `jLookup`). -/
def aLookup {α : Type} : List (String × α) → String → Option α
  | [], _ => none
  | (k, v) :: rest, key => if k = key then some v else aLookup rest key

/-- The per-type body of `compare`'s loop, producing the `(added_members,
removed_members, type_changes)` contributions of one common type name.  Python
iterates the set `o_keys & n_keys` in unspecified order; the model iterates in
`o_keys` order, which no claim depends on (only emptiness and membership do). -/
def compareOne (o n : ParsedType) (t : String) :
    List String × List String × List String :=
  match o, n with
  | ParsedType.struct o_props, ParsedType.struct n_props =>
    let o_keys := (o_props.map Prod.fst).dedup
    let n_keys := (n_props.map Prod.fst).dedup
    let added_p := sortStr (n_keys.filter (fun k => k ∉ o_keys))
    let removed_p := sortStr (o_keys.filter (fun k => k ∉ n_keys))
    let type_changed := (o_keys.filter (fun k => k ∈ n_keys)).filter
      (fun k => aLookup o_props k ≠ aLookup n_props k)
    (added_p.map (fun p => t ++ "." ++ p) ++
       type_changed.map (fun k =>
         t ++ "." ++ k ++ ":" ++ (aLookup n_props k).getD ""),
     removed_p.map (fun p => t ++ "." ++ p) ++
       type_changed.map (fun k =>
         t ++ "." ++ k ++ ":" ++ (aLookup o_props k).getD ""),
     [])
  | ParsedType.enum o_cases, ParsedType.enum n_cases =>
    let oc := o_cases.dedup
    let nc := n_cases.dedup
    let added_c := sortStr (nc.filter (fun c => c ∉ oc))
    let removed_c := sortStr (oc.filter (fun c => c ∉ nc))
    (added_c.map (fun c => t ++ ".case." ++ c),
     removed_c.map (fun c => t ++ ".case." ++ c),
     [])
  | _, _ => ([], [], [t])

end SAO

namespace SAO

/-- `compare(old, new)`: the full diff of two parsed snapshots.  Set operations
on Python `set`s of names are modelled on duplicate-free lists (`dedup`;
snapshot dicts have unique keys by construction). -/
def compare (old new : List (String × ParsedType)) : DiffResult :=
  let old_names := (old.map Prod.fst).dedup
  let new_names := (new.map Prod.fst).dedup
  let added_types := sortStr (new_names.filter (fun t => t ∉ old_names))
  let removed_types := sortStr (old_names.filter (fun t => t ∉ new_names))
  let common := sortStr (old_names.filter (fun t => t ∈ new_names))
  let acc := common.foldl
    (fun (acc : List String × List String × List String) t =>
      match aLookup old t, aLookup new t with
      | some o, some n =>
        let (a, r, c) := compareOne o n t
        (acc.1 ++ a, acc.2.1 ++ r, acc.2.2 ++ c)
      | _, _ => acc)  -- dead branch: `t` is a key of both dicts
    ([], [], [])
  let added_members := acc.1
  let removed_members := acc.2.1
  let type_changes := acc.2.2
  let major_conditions :=
    !removed_types.isEmpty || !removed_members.isEmpty || !type_changes.isEmpty
  let semver :=
    if major_conditions then "major"
    else if !added_types.isEmpty || !added_members.isEmpty then "minor"
    else "patch"
  { added_types := added_types
    removed_types := removed_types
    changed_type_kind := type_changes
    added_members := added_members
    removed_members := removed_members
    semver := semver }

end SAO

namespace SAO

/-- The severity tier of `compare` as a function of the five diff lists
(lines 115–127 of `classify-model-changes.py`). -/
def semverOf (removed_types removed_members type_changes added_types added_members :
    List String) : String :=
  if !removed_types.isEmpty || !removed_members.isEmpty || !type_changes.isEmpty then
    "major"
  else if !added_types.isEmpty || !added_members.isEmpty then
    "minor"
  else
    "patch"

theorem semverOf_major_iff (rt rm tc at_ am : List String) :
    semverOf rt rm tc at_ am = "major" ↔ (rt ≠ [] ∨ tc ≠ [] ∨ rm ≠ []) := by
  by_cases h1 : rt = [] <;> by_cases h2 : rm = [] <;> by_cases h3 : tc = [] <;>
    simp [semverOf, h1, h2, h3] <;>
    by_cases h4 : at_ = [] <;> by_cases h5 : am = [] <;> simp [h4, h5]

theorem semverOf_minor_iff (rt rm tc at_ am : List String) :
    semverOf rt rm tc at_ am = "minor" ↔
      ((rt = [] ∧ tc = [] ∧ rm = []) ∧ (at_ ≠ [] ∨ am ≠ [])) := by
  by_cases h1 : rt = [] <;> by_cases h2 : rm = [] <;> by_cases h3 : tc = [] <;>
    by_cases h4 : at_ = [] <;> by_cases h5 : am = [] <;>
    simp [semverOf, h1, h2, h3, h4, h5]

theorem semverOf_patch_iff (rt rm tc at_ am : List String) :
    semverOf rt rm tc at_ am = "patch" ↔
      (rt = [] ∧ tc = [] ∧ rm = [] ∧ at_ = [] ∧ am = []) := by
  by_cases h1 : rt = [] <;> by_cases h2 : rm = [] <;> by_cases h3 : tc = [] <;>
    by_cases h4 : at_ = [] <;> by_cases h5 : am = [] <;>
    simp [semverOf, h1, h2, h3, h4, h5]

theorem compare_semver_eq (old new : List (String × ParsedType)) :
    (compare old new).semver =
      semverOf (compare old new).removed_types (compare old new).removed_members
        (compare old new).changed_type_kind (compare old new).added_types
        (compare old new).added_members := rfl

/-- **C2.** For every pair of parsed snapshots, the diff's severity is computed in
strict priority order: `major` exactly when some type was removed, some type's
kind changed, or some removed-member entry exists; `minor` exactly when no major
condition holds and some type or some member was added; `patch` otherwise. -/
theorem compare_severity_priority (old new : List (String × ParsedType)) :
    ((compare old new).semver = "major" ↔
       ((compare old new).removed_types ≠ [] ∨
        (compare old new).changed_type_kind ≠ [] ∨
        (compare old new).removed_members ≠ [])) ∧
    ((compare old new).semver = "minor" ↔
       (((compare old new).removed_types = [] ∧
         (compare old new).changed_type_kind = [] ∧
         (compare old new).removed_members = []) ∧
        ((compare old new).added_types ≠ [] ∨ (compare old new).added_members ≠ []))) ∧
    ((compare old new).semver = "patch" ↔
       ((compare old new).removed_types = [] ∧
        (compare old new).changed_type_kind = [] ∧
        (compare old new).removed_members = [] ∧
        (compare old new).added_types = [] ∧
        (compare old new).added_members = [])) := by
  rw [compare_semver_eq]
  exact ⟨semverOf_major_iff _ _ _ _ _, semverOf_minor_iff _ _ _ _ _,
    semverOf_patch_iff _ _ _ _ _⟩

end SAO

namespace SAO

theorem parse_go_skip_all (lines : List String) (types : List (String × ParsedType))
    (h : lines.all
      (fun l => (match_struct_head l).isNone && (match_enum_head l).isNone) = true) :
    parse_go lines ParseState.top types = types := by
  induction lines with
  | nil => rfl
  | cons l rest ih =>
    simp only [List.all_cons, Bool.and_eq_true, Option.isNone_iff_eq_none] at h
    obtain ⟨⟨hs, he⟩, hrest⟩ := h
    rw [parse_go]
    simp only [parse_step, hs, he]
    exact ih (by simpa using hrest)

/-- **C7.** Diffing never fails: a snapshot text in which no type-declaration
head line is recognized parses to the empty type mapping, and diffing the empty
mapping (as the old snapshot) against any new snapshot yields no removed types,
no kind changes and no removed members — every type of the new snapshot appears
as added — so the severity is never `major`. -/
theorem diff_of_unparsed_snapshot (text : String) (new : List (String × ParsedType))
    (h : (pySplitlines text).all
      (fun l => (match_struct_head l).isNone && (match_enum_head l).isNone) = true) :
    parse_models text = [] ∧
    (compare [] new).removed_types = [] ∧
    (compare [] new).changed_type_kind = [] ∧
    (compare [] new).removed_members = [] ∧
    (compare [] new).added_types = sortStr (new.map Prod.fst).dedup ∧
    (compare [] new).semver ≠ "major" := by
  refine ⟨parse_go_skip_all _ _ h, ?_, ?_, ?_, ?_, ?_⟩
  · rfl
  · rfl
  · rfl
  · show sortStr (((new.map Prod.fst).dedup).filter _) = _
    congr 1
    simp [List.filter_eq_self]
  · show semverOf [] [] [] _ _ ≠ "major"
    simp [semverOf_major_iff]

theorem diff_of_unparsed_snapshot_witness :
    parse_models "not a declaration\n// just a comment" = [] ∧
    (compare [] [("GeneratedWidget", ParsedType.struct [("name", "String")])]).removed_types = [] ∧
    (compare [] [("GeneratedWidget", ParsedType.struct [("name", "String")])]).changed_type_kind = [] ∧
    (compare [] [("GeneratedWidget", ParsedType.struct [("name", "String")])]).removed_members = [] ∧
    (compare [] [("GeneratedWidget", ParsedType.struct [("name", "String")])]).added_types =
      sortStr ([("GeneratedWidget", ParsedType.struct [("name", "String")])].map Prod.fst).dedup ∧
    (compare [] [("GeneratedWidget", ParsedType.struct [("name", "String")])]).semver ≠ "major" :=
  diff_of_unparsed_snapshot "not a declaration\n// just a comment"
    [("GeneratedWidget", ParsedType.struct [("name", "String")])] (by decide)

end SAO

namespace SAO

/-! ## `generate-swift-models.py`: the Type Compiler -/

/-- Split a character list at every occurrence of `sep` (Python `s.split(sep)`,
which keeps empty fragments). -/
def splitOnCh (sep : Char) : List Char → List (List Char)
  | [] => [[]]
  | c :: cs =>
    if c = sep then [] :: splitOnCh sep cs
    else
      match splitOnCh sep cs with
      | [] => [[c]]
      | r :: rs => (c :: r) :: rs

/-- ASCII model of Python `str.capitalize`: first character upper-cased, the
rest lower-cased. -/
def pyCapitalize : List Char → List Char
  | [] => []
  | c :: rest => c.toUpper :: rest.map Char.toLower

/-- `SwiftModelGenerator.swift_class_name`: OpenAPI schema name to Swift class
name.  The unused `schema_name` parameter of the Python method is dropped. -/
def swift_class_name (name0 : String) : String :=
  let name := pyReplace name0 "OpenAI." ""
  let name := pyReplace name "Azure" ""
  -- handle special problematic names first
  if name = "expires_after" then "GeneratedExpiresAfter"
  else if name = "error" then "GeneratedError"
  else
    -- convert dotted names to PascalCase
    let name :=
      if containsChar name '.' then
        String.mk (((splitOnCh '.' name.data).map pyCapitalize).flatten)
      else name
    -- convert snake_case to PascalCase
    let name :=
      if containsChar name '_' then
        String.mk (((splitOnCh '_' name.data).map pyCapitalize).flatten)
      else name
    -- ensure first letter is capitalized
    let name :=
      match name.data with
      | [] => name
      | c :: rest => if c.isLower then String.mk (c.toUpper :: rest) else name
    -- handle special cases
    let name := pyReplace name "CreateEmbeddingRequest" "EmbeddingRequest"
    let name := pyReplace name "CreateEmbeddingResponse" "EmbeddingResponse"
    let name := pyReplace name "CreateFileRequest" "FileRequest"
    let name := pyReplace name "CreateResponse" "ResponseRequest"
    -- ensure it starts with the generated-artifact marker
    if py_startswith name "Generated" then name else "Generated" ++ name

/-- `SwiftModelGenerator.swift_property_name`: snake_case to camelCase. -/
def swift_property_name (name : String) : String :=
  match splitOnCh '_' name.data with
  | [] => name  -- unreachable: `split` always returns at least one fragment
  | c0 :: restComps =>
    if restComps = [] then name
    else String.mk (c0 ++ (restComps.map pyCapitalize).flatten)

/-- The value of `schema.get('type', 'string')` as far as the `==` comparisons
against string literals can see it: `none` stands for a non-string JSON value,
which compares unequal to every literal in Python. -/
def schemaTypeOf (fields : List (String × Json)) : Option String :=
  match jLookup fields "type" with
  | none => some "string"
  | some (Json.str s) => some s
  | some _ => none

/-- The value of `schema.get('format')` under the same convention
(`None` and non-string values both compare unequal to every literal). -/
def schemaFormatOf (fields : List (String × Json)) : Option String :=
  match jLookup fields "format" with
  | some (Json.str s) => some s
  | _ => none

mutual

/-- `SwiftModelGenerator.swift_type_from_schema`: OpenAPI schema node to Swift
type text.  The unused `schema_name` parameter of the Python method is dropped;
a non-dict schema node (on which the Python would raise) yields the fallback. -/
def swift_type_from_schema (spec : Json) : Json → String
  | Json.obj fields =>
    -- `$ref` handling: only schema references with the canonical prefix return
    -- here; any other `$ref` falls through to the generic flow, as in the source
    let refCase : Option String :=
      match jLookup fields "$ref" with
      | some refv =>
        let ref := jStr refv
        if py_startswith ref "#/components/schemas/" then
          let ref_name := pyReplace ref "#/components/schemas/" ""
          match jLookup (jFields2 spec "components" "schemas") ref_name with
          | some ref_schema =>
            -- special handling for anyOf schemas behind a reference
            if jHasKey (jFields ref_schema) "anyOf" then some "String"
            else some (swift_class_name ref_name)
          | none => some (swift_class_name ref_name)
        else none
      | none => none
    match refCase with
    | some r => r
    | none =>
      -- handle anyOf schemas directly
      if jHasKey fields "anyOf" then "String"
      else
        let schema_type := schemaTypeOf fields
        let schema_format := schemaFormatOf fields
        if schema_type = some "string" then
          if jHasKey fields "enum" then "String"
          else if schema_format = some "date-time" then "Date"
          else if schema_format = some "uri" then "URL"
          else "String"
        else if schema_type = some "integer" then
          if schema_format = some "int64" then "Int64" else "Int"
        else if schema_type = some "number" then
          if schema_format = some "float" then "Float" else "Double"
        else if schema_type = some "boolean" then "Bool"
        else if schema_type = some "array" then
          "[" ++ swift_items_type spec fields ++ "]"
        else if schema_type = some "object" then
          -- with or without 'properties', inline objects map to SAOAIJSONValue
          "SAOAIJSONValue"
        else "Any"
  | _ => "Any"

/-- The recursion of `swift_type_from_schema` through `schema.get('items', {})`:
search the fields for `items` and recurse; when absent, the Python recursion on
the default empty dict returns the text type `'String'`. -/
def swift_items_type (spec : Json) : List (String × Json) → String
  | [] => "String"
  | (k, v) :: rest => if k = "items" then swift_type_from_schema spec v else swift_items_type spec rest

end

/-- The per-value case-identifier transliteration of
`SwiftModelGenerator.generate_enum` (lines 133–145 of the source). -/
def enum_case_name (value : String) : String :=
  let case_name := pyLower value
  -- replace dots, dashes and spaces
  let case_name := pyReplace (pyReplace (pyReplace case_name "." "_") "-" "_") " " "_"
  -- replace any other non-alphanumeric character except underscores
  let case_name := String.mk (case_name.data.map (fun c => if pyIsAlnum c || c = '_' then c else '_'))
  -- ensure it does not start with a digit
  let case_name :=
    match case_name.data with
    | [] => case_name
    | c :: _ => if c.isDigit then "case_" ++ case_name else case_name
  -- handle empty case names
  if case_name = "" then "unknown" else case_name

/-- The line list built by `SwiftModelGenerator.generate_enum`. -/
def generate_enum_lines (name : String) (schema : Json) : List String :=
  let swift_name := swift_class_name name
  -- schema.get('enum', []); non-string values would raise in Python (dead branch)
  let enum_values := (jItems ((jLookup (jFields schema) "enum").getD (Json.arr []))).map jStr
  ["/// Generated enum for " ++ name,
   "public enum " ++ (swift_name ++ ": String, Codable, CaseIterable \x7b")]
  ++ enum_values.map (fun value =>
       "    case " ++ (enum_case_name value ++ (" = \"" ++ (value ++ "\""))))
  ++ ["\x7d", ""]

/-- `SwiftModelGenerator.generate_enum`. -/
def generate_enum (name : String) (schema : Json) : String :=
  join_nl (generate_enum_lines name schema)

end SAO

namespace SAO

/-- Match the markdown-link regex `\[([^\]]+)\]\([^)]+\)` at the head of the
list; on success return the first captured group and the rest.  Both character
classes are greedy runs bounded by their excluded delimiter. -/
def tryMdLink (cs : List Char) : Option (List Char × List Char) :=
  match cs with
  | '[' :: cs1 =>
    match cs1.takeWhile (fun c => c ≠ ']'), cs1.dropWhile (fun c => c ≠ ']') with
    | [], _ => none
    | g1, ']' :: '(' :: cs2 =>
      match cs2.takeWhile (fun c => c ≠ ')'), cs2.dropWhile (fun c => c ≠ ')') with
      | [], _ => none
      | _, ')' :: rest => some (g1, rest)
      | _, _ => none
    | _, _ => none
  | _ => none

/-- `re.sub(r'\[([^\]]+)\]\([^)]+\)', r'\1', s)`: left-to-right, non-overlapping,
fuel-indexed to stay structural (fuel ≥ list length makes it total). -/
def mdLinkSubChars : Nat → List Char → List Char
  | _, [] => []
  | 0, cs => cs
  | fuel + 1, c :: cs =>
    match tryMdLink (c :: cs) with
    | some (g1, rest) => g1 ++ mdLinkSubChars fuel rest
    | none => c :: mdLinkSubChars fuel cs

/-- Match the bullet regex `- `[^`]+`:` (without its `^` anchor) at the head. -/
def tryBullet (cs : List Char) : Option (List Char) :=
  match cs with
  | '-' :: ' ' :: '`' :: cs1 =>
    match cs1.takeWhile (fun c => c ≠ '`'), cs1.dropWhile (fun c => c ≠ '`') with
    | [], _ => none
    | _, '`' :: ':' :: rest => some rest
    | _, _ => none
  | _ => none

/-- `re.sub(r'^- `[^`]+`:', '', s, flags=re.MULTILINE)`: the `^` anchor matches
at the start of the string and after each newline. -/
def bulletSubChars : Nat → Bool → List Char → List Char
  | _, _, [] => []
  | 0, _, cs => cs
  | fuel + 1, atLineStart, c :: cs =>
    match (if atLineStart then tryBullet (c :: cs) else none) with
    | some rest => bulletSubChars fuel false rest
    | none => c :: bulletSubChars fuel (c = '\n') cs

/-- Whitespace for Python's argument-less `str.split` (ASCII model; may include
the newline, which can occur inside a raw description). -/
def pyAnySpace (c : Char) : Bool := pySpaceChar c || c = '\n'

theorem dropWhile_length_le {α : Type} (p : α → Bool) (l : List α) :
    (l.dropWhile p).length ≤ l.length := by
  induction l with
  | nil => simp [List.dropWhile]
  | cons a l ih =>
    by_cases h : p a <;> simp only [List.dropWhile, h] <;> simp <;> omega

/-- Python `s.split()`: maximal runs of non-whitespace characters. -/
def pyWordsOf : List Char → List (List Char)
  | [] => []
  | c :: cs =>
    if pyAnySpace c then pyWordsOf cs
    else (c :: cs.takeWhile (fun d => !pyAnySpace d)) :: pyWordsOf (cs.dropWhile (fun d => !pyAnySpace d))
  termination_by cs => cs.length
  decreasing_by
    · simp
    · simp only [List.length_cons]
      exact Nat.lt_succ_of_le (dropWhile_length_le _ _)

/-- Python `' '.join(words)` on character lists. -/
def joinSpace : List (List Char) → List Char
  | [] => []
  | [w] => w
  | w :: rest => w ++ ' ' :: joinSpace rest

/-- `SwiftModelGenerator.clean_description`: strip markdown links and leading
bullet markers, collapse whitespace, truncate beyond 200 characters. -/
def clean_description (description : String) : String :=
  if description = "" then ""
  else
    let d := String.mk (mdLinkSubChars description.data.length description.data)
    let d := String.mk (bulletSubChars d.data.length true d.data)
    let d := String.mk (joinSpace (pyWordsOf d.data))
    if 200 < d.data.length then String.mk (d.data.take 197) ++ "..." else d

end SAO

namespace SAO

/-- `schema.get('properties', {})` as an association list.  A non-dict value
would make the Python `.items()` call raise (dead branch: `[]`). -/
def propertiesOf (schema : Json) : List (String × Json) :=
  jFields ((jLookup (jFields schema) "properties").getD (Json.obj []))

/-- `set(schema.get('required', []))`: only string members can equal a property
name, so non-string members are dropped. -/
def requiredOf (schema : Json) : List String :=
  (jItems ((jLookup (jFields schema) "required").getD (Json.arr []))).filterMap
    (fun j => match j with
      | Json.str s => some s
      | _ => none)

/-- The property type emitted by `generate_struct`: the mapped type, made
optional when the property is not required. -/
def prop_type_text (spec schema : Json) (prop_name : String) (prop_schema : Json) : String :=
  let swift_type := swift_type_from_schema spec prop_schema
  if prop_name ∈ requiredOf schema then swift_type else swift_type ++ "?"

/-- `prop_schema.get('description', '')`; a non-string value would make the
Python regex substitution raise (dead branch: `""`). -/
def descriptionOf (prop_schema : Json) : String :=
  jStr ((jLookup (jFields prop_schema) "description").getD (Json.str ""))

/-- The conformance clause computed by the second (shadowing) definition of
`SwiftModelGenerator.generate_struct` (lines 203–216): `Codable` alone exactly
when some property's type text contains `'[String: Any]'`. -/
def struct_conformance (spec schema : Json) : String :=
  let has_non_equatable := (propertiesOf schema).any
    (fun kv => containsSub (swift_type_from_schema spec kv.2) "[String: Any]")
  if has_non_equatable then "Codable" else "Codable, Equatable"

/-- The property lines of `generate_struct`: for each property an optional
doc-comment line, the `public let` line, and a blank line. -/
def struct_prop_lines (spec schema : Json) : List String :=
  ((propertiesOf schema).map (fun kv =>
    let description := clean_description (descriptionOf kv.2)
    (if description ≠ "" then ["    /// " ++ description] else []) ++
    ["    public let " ++ (swift_property_name kv.1 ++ (": " ++
       prop_type_text spec schema kv.1 kv.2)),
     ""])).flatten

/-- The `coding_keys_needed` test of `generate_struct`: some property's
generated identifier differs from its original schema name. -/
def coding_keys_needed (schema : Json) : Bool :=
  (propertiesOf schema).any (fun kv => swift_property_name kv.1 ≠ kv.1)

/-- The CodingKeys block of `generate_struct`, emitted only when needed. -/
def struct_ck_lines (schema : Json) : List String :=
  if coding_keys_needed schema then
    ["    private enum CodingKeys: String, CodingKey \x7b"] ++
    (propertiesOf schema).map (fun kv =>
      let swift_prop_name := swift_property_name kv.1
      if swift_prop_name ≠ kv.1 then
        "        case " ++ (swift_prop_name ++ (" = \"" ++ (kv.1 ++ "\"")))
      else
        "        case " ++ swift_prop_name) ++
    ["    \x7d", ""]
  else []

/-- The line list built by the second (shadowing) definition of
`SwiftModelGenerator.generate_struct`; the first definition at lines 177-201 is
dead code in Python, shadowed by the later one. -/
def generate_struct_lines (spec : Json) (name : String) (schema : Json) : List String :=
  ["/// Generated model for " ++ name,
   "public struct " ++ (swift_class_name name ++ (": " ++
     (struct_conformance spec schema ++ " \x7b")))]
  ++ struct_prop_lines spec schema ++ struct_ck_lines schema ++ ["\x7d", ""]

/-- `SwiftModelGenerator.generate_struct` (the effective, second definition). -/
def generate_struct (spec : Json) (name : String) (schema : Json) : String :=
  join_nl (generate_struct_lines spec name schema)

/-- `spec.get('components', {}).get('schemas', {})` in document order. -/
def schemasOf (spec : Json) : List (String × Json) := jFields2 spec "components" "schemas"

/-- The selection test of the enum pass of `generate_models`
(`schema.get('type') == 'string' and 'enum' in schema`). -/
def isEnumSchema (schema : Json) : Bool :=
  (match jLookup (jFields schema) "type" with
   | some (Json.str s) => s = "string"
   | _ => false) && jHasKey (jFields schema) "enum"

/-- The selection test of the struct pass of `generate_models`
(`schema.get('type') == 'object' or 'properties' in schema`). -/
def isStructSchema (schema : Json) : Bool :=
  (match jLookup (jFields schema) "type" with
   | some (Json.str s) => s = "object"
   | _ => false) || jHasKey (jFields schema) "properties"

/-- The `lines` list of `SwiftModelGenerator.generate_models`: the header, the
enum blocks, then the struct blocks (each block element is itself a multi-line
string, exactly as in the Python; the `anyOf` branch of the enum pass emits
nothing). -/
def generate_models_lines (spec : Json) : List String :=
  let schemas := schemasOf spec
  ["// Generated Swift Models from OpenAPI Specification",
   "// DO NOT EDIT: This file is automatically generated",
   "",
   "import Foundation",
   ""]
  ++ schemas.filterMap (fun kv =>
       if isEnumSchema kv.2 then some (generate_enum kv.1 kv.2) else none)
  ++ schemas.filterMap (fun kv =>
       if isStructSchema kv.2 then some (generate_struct spec kv.1 kv.2) else none)

/-- `SwiftModelGenerator.generate_models`. -/
def generate_models (spec : Json) : String := join_nl (generate_models_lines spec)

end SAO

namespace SAO

theorem jHasKey_false_lookup {fields : List (String × Json)} {k : String}
    (h : jHasKey fields k = false) : jLookup fields k = none := by
  induction fields with
  | nil => rfl
  | cons kv rest ih =>
    obtain ⟨k', v⟩ := kv
    simp only [jHasKey, List.any_cons, Bool.or_eq_false_iff, decide_eq_false_iff_not] at h
    simp only [jLookup, if_neg h.1]
    exact ih (by simp [jHasKey, h.2])

/-- **C5 (amended).**  A node carrying `anyOf` (and no schema reference) maps to
the text type `'String'` — not to the opaque placeholder — and an `object` node
(with or without nested properties, in particular with none) maps to the opaque
structured-value placeholder `'SAOAIJSONValue'`, never to a bespoke record. -/
theorem anyOf_and_object_type_mapping (spec : Json) (fields : List (String × Json))
    (href : jHasKey fields "$ref" = false) :
    (jHasKey fields "anyOf" = true →
      swift_type_from_schema spec (Json.obj fields) = "String") ∧
    (jHasKey fields "anyOf" = false → schemaTypeOf fields = some "object" →
      swift_type_from_schema spec (Json.obj fields) = "SAOAIJSONValue") := by
  have hl : jLookup fields "$ref" = none := jHasKey_false_lookup href
  constructor
  · intro hany
    simp [swift_type_from_schema, hl, hany]
  · intro hany hty
    simp [swift_type_from_schema, hl, hany, hty]

theorem anyOf_and_object_type_mapping_witness :
    (jHasKey [("anyOf", Json.arr [])] "$ref" = false ∧
     jHasKey [("anyOf", Json.arr [])] "anyOf" = true ∧
     swift_type_from_schema (Json.obj []) (Json.obj [("anyOf", Json.arr [])]) = "String") ∧
    (jHasKey [("type", Json.str "object")] "$ref" = false ∧
     schemaTypeOf [("type", Json.str "object")] = some "object" ∧
     swift_type_from_schema (Json.obj []) (Json.obj [("type", Json.str "object")]) =
       "SAOAIJSONValue") :=
  ⟨⟨by decide, by decide,
    (anyOf_and_object_type_mapping (Json.obj []) [("anyOf", Json.arr [])] (by decide)).1
      (by decide)⟩,
   ⟨by decide, by rfl,
    (anyOf_and_object_type_mapping (Json.obj []) [("type", Json.str "object")] (by decide)).2
      (by decide) (by rfl)⟩⟩

/-- **C5 (counterexample).**  The claim says a union-of-types (`anyOf`) node is
mapped to the opaque structured-value placeholder (`SAOAIJSONValue`); the code
maps it to `'String'` instead. -/
theorem anyOf_not_mapped_to_placeholder :
    swift_type_from_schema (Json.obj []) (Json.obj [("anyOf", Json.arr [])]) = "String" ∧
    swift_type_from_schema (Json.obj []) (Json.obj [("anyOf", Json.arr [])]) ≠
      "SAOAIJSONValue" := by
  constructor
  · rfl
  · intro h
    exact absurd h (by decide)

end SAO

namespace SAO

/-- **C4 (amended).**  The struct header marks the record with the computed
conformance, and that conformance drops equality (`Codable` alone) exactly when
some property's mapped type text contains the literal `'[String: Any]'` — a text
the type mapper does not emit for the opaque placeholder, which it renders as
`'SAOAIJSONValue'`; records whose properties map to the placeholder therefore
stay equality-comparable. -/
theorem struct_conformance_rule (spec : Json) (name : String) (schema : Json) :
    (generate_struct_lines spec name schema).get? 1 =
      some ("public struct " ++ (swift_class_name name ++ (": " ++
        (struct_conformance spec schema ++ " \x7b")))) ∧
    (struct_conformance spec schema = "Codable" ↔
      (propertiesOf schema).any
        (fun kv => containsSub (swift_type_from_schema spec kv.2) "[String: Any]") = true) ∧
    (struct_conformance spec schema = "Codable, Equatable" ↔
      (propertiesOf schema).any
        (fun kv => containsSub (swift_type_from_schema spec kv.2) "[String: Any]") = false) := by
  refine ⟨rfl, ?_, ?_⟩ <;>
    · unfold struct_conformance
      cases h : (propertiesOf schema).any
        (fun kv => containsSub (swift_type_from_schema spec kv.2) "[String: Any]") <;>
        simp [h]

theorem struct_conformance_rule_witness :
    (generate_struct_lines (Json.obj []) "Widget4"
        (Json.obj [("type", Json.str "object"),
          ("properties", Json.obj [("data", Json.obj [("type", Json.str "object")])])])).get? 1 =
      some ("public struct " ++ (swift_class_name "Widget4" ++ (": " ++
        (struct_conformance (Json.obj [])
          (Json.obj [("type", Json.str "object"),
            ("properties", Json.obj [("data", Json.obj [("type", Json.str "object")])])]) ++
        " \x7b")))) :=
  (struct_conformance_rule (Json.obj []) "Widget4"
    (Json.obj [("type", Json.str "object"),
      ("properties", Json.obj [("data", Json.obj [("type", Json.str "object")])])])).1

/-- **C4 (counterexample).**  A record with a property whose type resolves to the
opaque placeholder `SAOAIJSONValue` is still marked `Codable, Equatable`, while
the claim demands that such a record derive only serialization capability. -/
theorem placeholder_record_still_equatable :
    swift_type_from_schema (Json.obj []) (Json.obj [("type", Json.str "object")]) =
      "SAOAIJSONValue" ∧
    struct_conformance (Json.obj [])
      (Json.obj [("type", Json.str "object"),
        ("properties", Json.obj [("data", Json.obj [("type", Json.str "object")])])]) =
      "Codable, Equatable" ∧
    ("Codable, Equatable" : String) ≠ "Codable" := by
  exact ⟨rfl, rfl, by decide⟩

end SAO

namespace SAO

/-- Replacing a single-character pattern is a character map. -/
theorem replChars_single (a b : Char) :
    ∀ (fuel : Nat) (cs : List Char), cs.length ≤ fuel →
      replChars [a] [b] fuel cs = cs.map (fun c => if c = a then b else c) := by
  intro fuel
  induction fuel with
  | zero =>
    intro cs h
    rw [Nat.le_zero, List.length_eq_zero] at h
    subst h
    rfl
  | succ fuel ih =>
    intro cs h
    cases cs with
    | nil => rfl
    | cons c cs' =>
      simp only [List.length_cons, Nat.succ_le_succ_iff] at h
      by_cases hc : c = a
      · simp only [replChars, isPfx, List.map_cons, if_pos hc, hc]
        simp [ih cs' h]
      · simp only [replChars, isPfx, List.map_cons, if_neg hc]
        have : (a = c && true) = false := by
          simp
          exact fun hh => hc hh.symm
        simp only [this, Bool.and_false]
        simp [ih cs' h, hc]

theorem pyReplace_single (s : String) (a b : Char) :
    pyReplace s (String.mk [a]) (String.mk [b]) =
      String.mk (s.data.map (fun c => if c = a then b else c)) := by
  unfold pyReplace
  rw [replChars_single a b s.data.length s.data le_rfl]

/-- The enumeration-case identifier exactly as the claim describes it: lowercase
the literal, replace every non-identifier character by the separator `'_'`,
prepend a non-digit token when the result starts with a digit, and fall back to
the fixed placeholder `"unknown"` when the result is empty. -/
def claimed_case_ident (value : String) : String :=
  let translit := String.mk ((pyLower value).data.map (fun c => if identChar c then c else '_'))
  match translit.data with
  | [] => "unknown"
  | c :: rest => if c.isDigit then "case_" ++ String.mk (c :: rest) else String.mk (c :: rest)

theorem enum_case_name_eq_claimed (value : String) :
    enum_case_name value = claimed_case_ident value := by
  simp only [enum_case_name, claimed_case_ident]
  have h1 : pyReplace (pyLower value) "." "_" =
      String.mk ((pyLower value).data.map (fun c => if c = '.' then '_' else c)) :=
    pyReplace_single _ '.' '_'
  rw [h1, pyReplace_single _ '-' '_', pyReplace_single _ ' ' '_']
  simp only [List.map_map]
  have hmap : ∀ cs : List Char,
      cs.map ((fun c => if pyIsAlnum c || c = '_' then c else '_') ∘
        ((fun c => if c = ' ' then '_' else c) ∘
         ((fun c => if c = '-' then '_' else c) ∘ (fun c => if c = '.' then '_' else c)))) =
      cs.map (fun c => if identChar c then c else '_') := by
    intro cs
    apply List.map_congr_left
    intro c _
    by_cases h1 : c = '.'
    · subst h1; rfl
    · by_cases h2 : c = '-'
      · subst h2; rfl
      · by_cases h3 : c = ' '
        · subst h3; rfl
        · simp only [Function.comp, if_neg h1, if_neg h2, if_neg h3, identChar, pyIsAlnum,
            Bool.or_assoc]
  rw [hmap]
  cases hd : ((pyLower value).data.map (fun c => if identChar c then c else '_')) with
  | nil => rfl
  | cons c rest =>
    by_cases hdig : c.isDigit
    · simp only [if_pos hdig]
      have hne : ("case_" ++ String.mk (c :: rest)) ≠ "" := by
        intro h
        have := congrArg String.data h
        simp [String.data_append] at this
      simp [hne, hdig]
    · simp only [if_neg hdig]
      have hne : (String.mk (c :: rest)) ≠ "" := by
        intro h
        have := congrArg String.data h
        simp at this
      simp [hne, hdig]

end SAO

namespace SAO

/-- **C6.** For every enumeration schema (a string schema with literal values)
and every literal value in it, the compiler emits exactly one case line whose
identifier is the value lowercased with non-identifier characters replaced by
the separator `'_'`, prefixed with a non-digit token when the result begins with
a digit and replaced by the fixed placeholder identifier `"unknown"` when the
result is empty — and whose serialized raw value is the literal's original exact
string, unchanged by the transliteration. -/
theorem enum_case_synthesis (name : String) (values : List String) :
    generate_enum name
        (Json.obj [("type", Json.str "string"), ("enum", Json.arr (values.map Json.str))]) =
      join_nl
        (["/// Generated enum for " ++ name,
          "public enum " ++ (swift_class_name name ++ ": String, Codable, CaseIterable \x7b")]
         ++ values.map
              (fun value =>
                "    case " ++ (claimed_case_ident value ++ (" = \"" ++ (value ++ "\""))))
         ++ ["\x7d", ""]) := by
  unfold generate_enum generate_enum_lines
  have hvals :
      (jItems ((jLookup (jFields (Json.obj [("type", Json.str "string"),
          ("enum", Json.arr (values.map Json.str))])) "enum").getD (Json.arr []))).map jStr =
        values := by
    simp [jFields, jLookup, jItems, List.map_map]
    rw [show jStr ∘ Json.str = id from rfl, List.map_id]
  rw [hvals]
  dsimp only
  congr 2
  apply congrArg
  apply List.map_congr_left
  intro v _
  rw [enum_case_name_eq_claimed]

end SAO

namespace SAO

theorem lit_append_ne {p t : String} (s : String) (n : Nat) (hn : n ≤ p.data.length)
    (h : p.data.take n ≠ t.data.take n) : p ++ s ≠ t := by
  intro he
  apply h
  have hd : p.data ++ s.data = t.data := by
    rw [← String.data_append, he]
  rw [← hd, List.take_append_of_le_length hn]

/-- **C8.** For every compiled record, the wire-name mapping (the CodingKeys
side table from generated property identifier back to the original schema
property name) is emitted if and only if at least one of the record's
properties has a generated identifier that differs from its original schema
property name. -/
theorem coding_keys_iff (spec : Json) (name : String) (schema : Json) :
    ("    private enum CodingKeys: String, CodingKey \x7b" ∈
        generate_struct_lines spec name schema) ↔
      (propertiesOf schema).any
        (fun kv => decide (swift_property_name kv.1 ≠ kv.1)) = true := by
  have hck : coding_keys_needed schema =
      (propertiesOf schema).any (fun kv => decide (swift_property_name kv.1 ≠ kv.1)) := rfl
  rw [← hck]
  unfold generate_struct_lines
  constructor
  · intro hmem
    by_contra hneed
    have hfalse : coding_keys_needed schema = false := Bool.eq_false_iff.mpr hneed
    unfold struct_ck_lines at hmem
    rw [hfalse] at hmem
    simp only [Bool.false_eq_true, if_false, List.mem_append, List.mem_cons,
      List.not_mem_nil, or_false, List.mem_singleton] at hmem
    rcases hmem with ((h1 | h2) | h3) | (h4 | h5)
    · exact lit_append_ne name 1 (by decide) (by decide) h1.symm
    · exact lit_append_ne _ 1 (by decide) (by decide) h2.symm
    · unfold struct_prop_lines at h3
      rw [List.mem_flatten] at h3
      obtain ⟨block, hblock, hckmem⟩ := h3
      rw [List.mem_map] at hblock
      obtain ⟨kv, _, hkv⟩ := hblock
      rw [← hkv] at hckmem
      dsimp only at hckmem
      rw [List.mem_append] at hckmem
      rcases hckmem with hdesc | hrest
      · by_cases hd : clean_description (descriptionOf kv.2) ≠ ""
        · rw [if_pos hd, List.mem_singleton] at hdesc
          exact lit_append_ne _ 8 (by decide) (by decide) hdesc.symm
        · rw [if_neg hd] at hdesc
          exact (List.not_mem_nil _) hdesc
      · rw [List.mem_cons, List.mem_singleton] at hrest
        rcases hrest with hlet | hempty
        · exact lit_append_ne _ 8 (by decide) (by decide) hlet.symm
        · exact absurd hempty.symm (by decide)
    · exact absurd h4.symm (by decide)
    · exact absurd h5.symm (by decide)
  · intro hneed
    unfold struct_ck_lines
    rw [hneed]
    simp [List.mem_append]

end SAO

namespace SAO

/-! ## `prune-openapi-spec.py`: the Reachability Pruner -/

/-- The fixed keep-path set of `get_required_endpoints`. -/
def get_required_endpoints : List String :=
  ["/responses", "/embeddings", "/files", "/files/\x7bfile_id\x7d"]

mutual

/-- `extract_refs_from_obj`, functionally: the list of schema names contributed
by an object, in traversal order (the Python mutates a set; the net effect is
the union with this list).  A dict containing a `$ref` key contributes only that
reference — with the canonical prefix stripped by a replace-all, as in the
source — and its sibling entries are not scanned; a non-string `$ref` would make
the Python raise (dead branch: no contribution). -/
def extract_refs_from_obj : Json → List String
  | Json.obj fields =>
    if jHasKey fields "$ref" then
      match jLookup fields "$ref" with
      | some (Json.str ref_path) =>
        if py_startswith ref_path "#/components/schemas/" then
          [pyReplace ref_path "#/components/schemas/" ""]
        else []
      | _ => []
    else extract_refs_fields fields
  | Json.arr items => extract_refs_items items
  | _ => []

def extract_refs_fields : List (String × Json) → List String
  | [] => []
  | (_, v) :: rest => extract_refs_from_obj v ++ extract_refs_fields rest

def extract_refs_items : List Json → List String
  | [] => []
  | v :: rest => extract_refs_from_obj v ++ extract_refs_items rest

end

/-- Add every element of `xs` to the set `r` (Python set-mutation by
`extract_refs_from_obj`, in traversal order). -/
def addAll (r : List String) (xs : List String) : List String := xs.foldl addSet r

/-- The seed set: references extracted from the kept path objects
(lines 73–77 of `prune-openapi-spec.py`). -/
def seedRefs (spec : Json) (paths_to_keep : List String) : List String :=
  (jFields ((jLookup (jFields spec) "paths").getD (Json.obj []))).foldl
    (fun r kv => if kv.1 ∈ paths_to_keep then addAll r (extract_refs_from_obj kv.2) else r)
    []

/-- Python `list.pop()`: remove and return the **last** element. -/
def pyPop {α : Type} (l : List α) : Option (α × List α) :=
  match l.reverse with
  | [] => none
  | x :: rest => some (x, rest.reverse)

/-- One iteration of the worklist loop of `collect_referenced_schemas`
(lines 83–92): pop a name; if it denotes a schema, add its references to the
set, and extend the queue — with every referenced name not already queued and
not the current one — only when the set strictly grew.  `none` when the queue is
empty.  (Python iterates the `new_schemas` set in unspecified order; the model
fixes the insertion order of the set, which no claim depends on.) -/
def collect_step (schemas : List (String × Json)) (referenced queue : List String) :
    Option (List String × List String) :=
    match pyPop queue with
    | none => none
    | some (schema_name, queueRest) =>
      match jLookup schemas schema_name with
      | some schema_obj =>
        let referenced' := addAll referenced (extract_refs_from_obj schema_obj)
        let new_schemas := referenced'.filter
          (fun x => x ∉ queueRest && x ≠ schema_name)
        if referenced.length < referenced'.length then
          some (referenced', queueRest ++ new_schemas)
        else
          some (referenced', queueRest)
      | none => some (referenced, queueRest)

/-- The union of every schema value's extractable reference names: the finite
universe within which the referenced-name set grows. -/
def schemaUniverse (schemas : List (String × Json)) : List String :=
  (schemas.map (fun kv => extract_refs_from_obj kv.2)).flatten

end SAO

namespace SAO

theorem mem_addSet {r : List String} {x y : String} :
    y ∈ addSet r x ↔ y ∈ r ∨ y = x := by
  unfold addSet
  by_cases h : x ∈ r
  · simp only [if_pos h]
    constructor
    · exact Or.inl
    · rintro (hy | rfl)
      · exact hy
      · exact h
  · simp [if_neg h]

theorem subset_addSet (r : List String) (x : String) : r ⊆ addSet r x := by
  intro y hy
  exact mem_addSet.mpr (Or.inl hy)

theorem addSet_length_ge (r : List String) (x : String) :
    r.length ≤ (addSet r x).length := by
  unfold addSet
  by_cases h : x ∈ r <;> simp [h]

theorem addSet_of_mem {r : List String} {x : String} (h : x ∈ r) : addSet r x = r := by
  simp [addSet, h]

theorem addSet_length_eq {r : List String} {x : String}
    (h : (addSet r x).length = r.length) : x ∈ r := by
  by_contra hx
  simp [addSet, hx] at h

theorem subset_addAll (r : List String) (xs : List String) : r ⊆ addAll r xs := by
  induction xs generalizing r with
  | nil => exact fun y hy => hy
  | cons x xs ih =>
    intro y hy
    exact ih (addSet r x) (subset_addSet r x hy)

theorem mem_addAll_iff {r : List String} {xs : List String} {y : String} :
    y ∈ addAll r xs ↔ y ∈ r ∨ y ∈ xs := by
  induction xs generalizing r with
  | nil => simp [addAll]
  | cons x xs ih =>
    show y ∈ addAll (addSet r x) xs ↔ _
    rw [ih, mem_addSet]
    simp [or_assoc]

theorem addAll_length_ge (r : List String) (xs : List String) :
    r.length ≤ (addAll r xs).length := by
  induction xs generalizing r with
  | nil => exact le_rfl
  | cons x xs ih =>
    exact le_trans (addSet_length_ge r x) (ih (addSet r x))

theorem addAll_of_all_mem {r : List String} {xs : List String}
    (h : ∀ x ∈ xs, x ∈ r) : addAll r xs = r := by
  induction xs with
  | nil => rfl
  | cons x xs ih =>
    show addAll (addSet r x) xs = r
    rw [addSet_of_mem (h x (List.mem_cons_self x xs))]
    exact ih (fun x' hx' => h x' (List.mem_cons_of_mem x hx'))

theorem addAll_length_eq {r : List String} {xs : List String}
    (h : (addAll r xs).length = r.length) : addAll r xs = r := by
  induction xs generalizing r with
  | nil => rfl
  | cons x xs ih =>
    show addAll (addSet r x) xs = r
    have h1 : (addSet r x).length ≤ (addAll (addSet r x) xs).length :=
      addAll_length_ge _ _
    have h2 : (addAll (addSet r x) xs).length = r.length := h
    have h3 : (addSet r x).length = r.length :=
      le_antisymm (by omega) (addSet_length_ge r x)
    have hx : x ∈ r := addSet_length_eq h3
    rw [addSet_of_mem hx]
    rw [addSet_of_mem hx] at h2
    exact ih h2

theorem length_filter_mono {α : Type} {l : List α} {p q : α → Bool}
    (h : ∀ a, p a = true → q a = true) :
    (l.filter p).length ≤ (l.filter q).length := by
  induction l with
  | nil => exact le_rfl
  | cons a l ih =>
    by_cases hp : p a = true
    · simp [List.filter, hp, h a hp]
      omega
    · have hp' : p a = false := Bool.eq_false_iff.mpr hp
      by_cases hq : q a = true
      · simp [List.filter, hp', hq]
        omega
      · have hq' : q a = false := Bool.eq_false_iff.mpr hq
        simp [List.filter, hp', hq']
        exact ih

theorem length_filter_strict {α : Type} {l : List α} {p q : α → Bool}
    (h : ∀ a, p a = true → q a = true) (a0 : α) (ha : a0 ∈ l)
    (hq : q a0 = true) (hp : p a0 = false) :
    (l.filter p).length < (l.filter q).length := by
  induction l with
  | nil => exact absurd ha (List.not_mem_nil a0)
  | cons a l ih =>
    rcases List.mem_cons.mp ha with rfl | ha'
    · rw [List.filter_cons, List.filter_cons, hp, hq]
      simp only [List.length_cons]
      exact Nat.lt_succ_of_le (length_filter_mono h)
    · rw [List.filter_cons, List.filter_cons]
      by_cases hpa : p a = true
      · rw [hpa, h a hpa]
        simp only [List.length_cons]
        exact Nat.succ_lt_succ (ih ha')
      · have hpa' : p a = false := Bool.eq_false_iff.mpr hpa
        rw [hpa']
        by_cases hqa : q a = true
        · rw [hqa]
          simp only [List.length_cons]
          exact Nat.lt_succ_of_lt (ih ha')
        · rw [Bool.eq_false_iff.mpr hqa]
          exact ih ha'

theorem extract_subset_universe {schemas : List (String × Json)} {name : String}
    {obj : Json} (h : jLookup schemas name = some obj) :
    ∀ y ∈ extract_refs_from_obj obj, y ∈ schemaUniverse schemas := by
  induction schemas with
  | nil => exact absurd h (by simp [jLookup])
  | cons kv rest ih =>
    obtain ⟨k, v⟩ := kv
    intro y hy
    unfold schemaUniverse
    simp only [List.map_cons, List.flatten_cons, List.mem_append]
    by_cases hk : k = name
    · left
      simp only [jLookup, if_pos hk] at h
      injection h with h
      rw [h]
      exact hy
    · right
      simp only [jLookup, if_neg hk] at h
      exact ih h y hy

theorem pyPop_length {α : Type} {l rest : List α} {x : α}
    (h : pyPop l = some (x, rest)) : l.length = rest.length + 1 := by
  unfold pyPop at h
  cases hrev : l.reverse with
  | nil => rw [hrev] at h; exact absurd h (by simp)
  | cons a t =>
    rw [hrev] at h
    simp only [Option.some.injEq, Prod.mk.injEq] at h
    have hlen : l.length = (a :: t).length := by
      rw [← List.length_reverse l, hrev]
    rw [hlen, List.length_cons, ← h.2, List.length_reverse]

end SAO

namespace SAO

/-- The referenced-set component of the measure: how many universe names are
still missing from the set. -/
def missingCount (schemas : List (String × Json)) (r : List String) : Nat :=
  ((schemaUniverse schemas).filter (fun u => u ∉ r)).length

theorem collect_step_decrease (schemas : List (String × Json))
    (r q r' q' : List String)
    (h : collect_step schemas r q = some (r', q')) :
    missingCount schemas r' < missingCount schemas r ∨
      (r' = r ∧ q'.length < q.length) := by
  unfold collect_step at h
  cases hpop : pyPop q with
  | none => rw [hpop] at h; exact absurd h (by simp)
  | some popped =>
    obtain ⟨schema_name, queueRest⟩ := popped
    rw [hpop] at h
    dsimp only at h
    have hqlen : q.length = queueRest.length + 1 := pyPop_length hpop
    cases hlook : jLookup schemas schema_name with
    | none =>
      rw [hlook] at h
      simp only [Option.some.injEq, Prod.mk.injEq] at h
      right
      exact ⟨h.1.symm, by rw [← h.2]; omega⟩
    | some schema_obj =>
      rw [hlook] at h
      simp only at h
      by_cases hgrow : r.length < (addAll r (extract_refs_from_obj schema_obj)).length
      · rw [if_pos hgrow] at h
        simp only [Option.some.injEq, Prod.mk.injEq] at h
        left
        -- the set strictly grew: some extracted name is new, and it lies in the
        -- universe, so the missing count strictly drops
        have hr' : r' = addAll r (extract_refs_from_obj schema_obj) := h.1.symm
        have hnew : ∃ y ∈ extract_refs_from_obj schema_obj, y ∉ r := by
          by_contra hall
          push_neg at hall
          rw [addAll_of_all_mem hall] at hgrow
          omega
        obtain ⟨y, hy, hynotr⟩ := hnew
        unfold missingCount
        apply length_filter_strict
        · intro a ha
          simp only [decide_eq_true_eq] at ha ⊢
          intro har
          exact ha (hr' ▸ subset_addAll r _ har)
        · exact extract_subset_universe hlook y hy
        · simp only [decide_eq_true_eq]
          exact hynotr
        · simp only [decide_eq_false_iff_not, Decidable.not_not]
          rw [hr']
          exact mem_addAll_iff.mpr (Or.inr hy)
      · rw [if_neg hgrow] at h
        simp only [Option.some.injEq, Prod.mk.injEq] at h
        right
        have hle : (addAll r (extract_refs_from_obj schema_obj)).length ≤ r.length := by
          omega
        have heq : addAll r (extract_refs_from_obj schema_obj) = r :=
          addAll_length_eq (le_antisymm hle (addAll_length_ge _ _))
        constructor
        · rw [← h.1, heq]
        · rw [← h.2]; omega

/-- The worklist loop of `collect_referenced_schemas` (lines 83–92): iterate
`collect_step` until the queue empties, then return the referenced set.
Termination is by the lexicographic measure (missing universe names, queue
length), which `collect_step_decrease` shows every iteration shrinks. -/
def collect_loop (schemas : List (String × Json)) :
    List String × List String → List String
  | (referenced, queue) =>
    match hstep : collect_step schemas referenced queue with
    | none => referenced
    | some st' => collect_loop schemas st'
termination_by st => (missingCount schemas st.1, st.2.length)
decreasing_by
  rcases collect_step_decrease schemas referenced queue st'.1 st'.2 (by rw [hstep]) with hlt | ⟨heq, hlt⟩
  · exact Prod.Lex.left _ _ hlt
  · rw [heq]
    exact Prod.Lex.right _ hlt

/-- `collect_referenced_schemas(spec, paths_to_keep)`: seed from the kept path
objects, then close under schema-to-schema references with the worklist
(`schemas_to_process = list(referenced_schemas)` initially). -/
def collect_referenced_schemas (spec : Json) (paths_to_keep : List String) : List String :=
  let seeds := seedRefs spec paths_to_keep
  collect_loop (jFields2 spec "components" "schemas") (seeds, seeds)

end SAO

namespace SAO

/-- The document built by `prune_spec` once the referenced-schema set is known
(lines 106–155 of `prune-openapi-spec.py`). -/
def prune_spec_with (spec : Json) (referenced_schemas : List String) : Json :=
  let required_endpoints := get_required_endpoints
  let original_paths := jFields ((jLookup (jFields spec) "paths").getD (Json.obj []))
  let pruned_paths := original_paths.filter (fun kv => kv.1 ∈ required_endpoints)
  let original_schemas := jFields2 spec "components" "schemas"
  let pruned_schemas := original_schemas.filter (fun kv => kv.1 ∈ referenced_schemas)
  let original_security_schemes := jFields2 spec "components" "securitySchemes"
  let hasAuth := jHasKey original_security_schemes "ApiKeyAuth"
  Json.obj
    ([("openapi", (jLookup (jFields spec) "openapi").getD (Json.str "3.0.1")),
      ("info", (jLookup (jFields spec) "info").getD (Json.obj [])),
      ("servers", (jLookup (jFields spec) "servers").getD (Json.arr [])),
      ("paths", Json.obj pruned_paths),
      ("components", Json.obj
        ([("schemas", Json.obj pruned_schemas)] ++
         (if hasAuth then
            [("securitySchemes", Json.obj
              [("ApiKeyAuth",
                (jLookup original_security_schemes "ApiKeyAuth").getD Json.null)])]
          else [])))] ++
     (if hasAuth then
        [("security", Json.arr [Json.obj [("ApiKeyAuth", Json.arr [])]])]
      else []))

/-- `prune_spec(spec)`: pass through top-level metadata, keep only the required
endpoints and the referenced schemas, and keep ApiKeyAuth security when present
(lines 97–155 of `prune-openapi-spec.py`). -/
def prune_spec (spec : Json) : Json :=
  prune_spec_with spec (collect_referenced_schemas spec get_required_endpoints)

theorem jHasKey_of_lookup {fields : List (String × Json)} {k : String} {v : Json}
    (h : jLookup fields k = some v) : jHasKey fields k = true := by
  induction fields with
  | nil => exact absurd h (by simp [jLookup])
  | cons kv rest ih =>
    obtain ⟨k', v'⟩ := kv
    by_cases hk : k' = k
    · simp [jHasKey, hk]
    · simp only [jLookup, if_neg hk] at h
      have htail := ih h
      unfold jHasKey at htail ⊢
      simp only [List.any_cons, htail, Bool.or_true]

/-- **C10.** During reachability collection, a mapping node that contains a
`$ref` key contributes exactly what that single reference value dictates —
its sibling entries are never scanned — and the contribution is the referenced
schema name when the reference string starts with `#/components/schemas/`
(the prefix removed by a replace-all, as in the source) and nothing for a
reference to any other location. -/
theorem ref_extraction_scope (fields : List (String × Json)) (v : Json)
    (h : jLookup fields "$ref" = some v) :
    (∀ ref_path : String, v = Json.str ref_path →
       py_startswith ref_path "#/components/schemas/" = true →
       extract_refs_from_obj (Json.obj fields) =
         [pyReplace ref_path "#/components/schemas/" ""]) ∧
    (∀ ref_path : String, v = Json.str ref_path →
       py_startswith ref_path "#/components/schemas/" = false →
       extract_refs_from_obj (Json.obj fields) = []) ∧
    (∀ items, v = Json.arr items → extract_refs_from_obj (Json.obj fields) = []) := by
  have hkey : jHasKey fields "$ref" = true := jHasKey_of_lookup h
  refine ⟨?_, ?_, ?_⟩
  · rintro ref_path rfl hpre
    rw [extract_refs_from_obj, if_pos hkey, h]
    dsimp only
    simp [hpre]
  · rintro ref_path rfl hpre
    rw [extract_refs_from_obj, if_pos hkey, h]
    dsimp only
    simp [hpre]
  · rintro items rfl
    rw [extract_refs_from_obj, if_pos hkey, h]

theorem ref_extraction_scope_witness :
    extract_refs_from_obj (Json.obj
        [("$ref", Json.str "#/components/schemas/Widget"),
         ("sibling", Json.obj [("$ref", Json.str "#/components/schemas/Ignored")])]) =
      ["Widget"] ∧
    extract_refs_from_obj (Json.obj
        [("$ref", Json.str "#/components/responses/NotASchema"),
         ("sibling", Json.obj [("$ref", Json.str "#/components/schemas/Ignored")])]) =
      [] := by
  constructor
  · have := (ref_extraction_scope
      [("$ref", Json.str "#/components/schemas/Widget"),
       ("sibling", Json.obj [("$ref", Json.str "#/components/schemas/Ignored")])]
      (Json.str "#/components/schemas/Widget") (by rfl)).1
      "#/components/schemas/Widget" rfl (by decide)
    rw [this]
    decide
  · exact (ref_extraction_scope
      [("$ref", Json.str "#/components/responses/NotASchema"),
       ("sibling", Json.obj [("$ref", Json.str "#/components/schemas/Ignored")])]
      (Json.str "#/components/responses/NotASchema") (by rfl)).2.1
      "#/components/responses/NotASchema" rfl (by decide)

end SAO

namespace SAO

theorem pyPop_eq {α : Type} {l rest : List α} {x : α}
    (h : pyPop l = some (x, rest)) : l = rest ++ [x] := by
  unfold pyPop at h
  cases hrev : l.reverse with
  | nil => rw [hrev] at h; exact absurd h (by simp)
  | cons a t =>
    rw [hrev] at h
    simp only [Option.some.injEq, Prod.mk.injEq] at h
    have : l = (a :: t).reverse := by
      rw [← hrev, List.reverse_reverse]
    rw [this, List.reverse_cons, h.1, ← h.2]

/-- **C9.** One iteration of the worklist: the referenced-name set only grows,
it grows only within the finite universe of reference names occurring in the
document's schemas, the work queue is extended (not merely shortened by the pop)
only on iterations in which the set strictly grew, and the lexicographic measure
(missing universe names, queue length) strictly decreases — which is exactly the
well-foundedness that makes `collect_loop` terminate on every input. -/
theorem worklist_growth_and_termination (schemas : List (String × Json))
    (r q r' q' : List String) (h : collect_step schemas r q = some (r', q')) :
    (∀ x ∈ r, x ∈ r') ∧
    (∀ x ∈ r', x ∈ r ∨ x ∈ schemaUniverse schemas) ∧
    (q.length ≤ q'.length → r.length < r'.length) ∧
    (missingCount schemas r' < missingCount schemas r ∨
      (r' = r ∧ q'.length < q.length)) := by
  refine ⟨?_, ?_, ?_, collect_step_decrease schemas r q r' q' h⟩ <;>
  · unfold collect_step at h
    cases hpop : pyPop q with
    | none => rw [hpop] at h; exact absurd h (by simp)
    | some popped =>
      obtain ⟨schema_name, queueRest⟩ := popped
      rw [hpop] at h
      dsimp only at h
      have hqlen : q.length = queueRest.length + 1 := pyPop_length hpop
      cases hlook : jLookup schemas schema_name with
      | none =>
        rw [hlook] at h
        simp only [Option.some.injEq, Prod.mk.injEq] at h
        obtain ⟨hr, hq⟩ := h
        subst hr; subst hq
        first
        | exact fun x hx => hx
        | exact fun x hx => Or.inl hx
        | (intro hlen; omega)
      | some schema_obj =>
        rw [hlook] at h
        simp only at h
        by_cases hgrow : r.length < (addAll r (extract_refs_from_obj schema_obj)).length
        · rw [if_pos hgrow] at h
          simp only [Option.some.injEq, Prod.mk.injEq] at h
          obtain ⟨hr, hq⟩ := h
          subst hr; subst hq
          first
          | exact fun x hx => subset_addAll r _ hx
          | (intro x hx
             rcases mem_addAll_iff.mp hx with hxr | hxe
             · exact Or.inl hxr
             · exact Or.inr (extract_subset_universe hlook x hxe))
          | exact fun _ => hgrow
        · rw [if_neg hgrow] at h
          simp only [Option.some.injEq, Prod.mk.injEq] at h
          obtain ⟨hr, hq⟩ := h
          subst hr; subst hq
          first
          | exact fun x hx => subset_addAll r _ hx
          | (intro x hx
             rcases mem_addAll_iff.mp hx with hxr | hxe
             · exact Or.inl hxr
             · exact Or.inr (extract_subset_universe hlook x hxe))
          | (intro hlen; omega)

theorem worklist_growth_and_termination_witness :
    (∀ x ∈ ["GeneratedA"], x ∈ ["GeneratedA", "GeneratedB"]) ∧
    (∀ x ∈ ["GeneratedA", "GeneratedB"], x ∈ ["GeneratedA"] ∨
      x ∈ schemaUniverse
        [("GeneratedA", Json.obj [("$ref", Json.str "#/components/schemas/GeneratedB")])]) ∧
    (["GeneratedA"].length ≤ ["GeneratedB"].length →
      ["GeneratedA"].length < ["GeneratedA", "GeneratedB"].length) ∧
    (missingCount
        [("GeneratedA", Json.obj [("$ref", Json.str "#/components/schemas/GeneratedB")])]
        ["GeneratedA", "GeneratedB"] <
      missingCount
        [("GeneratedA", Json.obj [("$ref", Json.str "#/components/schemas/GeneratedB")])]
        ["GeneratedA"] ∨
      (["GeneratedA", "GeneratedB"] = ["GeneratedA"] ∧
        ["GeneratedB"].length < ["GeneratedA"].length)) :=
  worklist_growth_and_termination
    [("GeneratedA", Json.obj [("$ref", Json.str "#/components/schemas/GeneratedB")])]
    ["GeneratedA"] ["GeneratedA"] ["GeneratedA", "GeneratedB"] ["GeneratedB"]
    (by decide)

end SAO

namespace SAO

/-- Reachability: a schema name is reachable from the seed references via zero
or more schema-to-schema reference hops (each hop extracts references from the
definition of an already-reachable schema, exactly as the worklist does). -/
inductive Reachable (schemas : List (String × Json)) (seeds : List String) : String → Prop
  | seed {x : String} : x ∈ seeds → Reachable schemas seeds x
  | step {x y : String} {obj : Json} : Reachable schemas seeds x →
      jLookup schemas x = some obj → y ∈ extract_refs_from_obj obj →
      Reachable schemas seeds y

theorem pyPop_none {α : Type} {l : List α} (h : pyPop l = none) : l = [] := by
  unfold pyPop at h
  cases hrev : l.reverse with
  | nil => rw [← List.reverse_reverse l, hrev]; rfl
  | cons a t => rw [hrev] at h; exact absurd h (by simp)

theorem collect_step_invariants (schemas : List (String × Json)) (seeds : List String)
    (r q r' q' : List String) (h : collect_step schemas r q = some (r', q'))
    (hqr : ∀ x ∈ q, x ∈ r)
    (hsound : ∀ x ∈ r, Reachable schemas seeds x)
    (hseeds : ∀ x ∈ seeds, x ∈ r)
    (hclosed : ∀ x ∈ r, x ∉ q → ∀ obj, jLookup schemas x = some obj →
       ∀ y ∈ extract_refs_from_obj obj, y ∈ r) :
    (∀ x ∈ q', x ∈ r') ∧ (∀ x ∈ r', Reachable schemas seeds x) ∧
    (∀ x ∈ seeds, x ∈ r') ∧
    (∀ x ∈ r', x ∉ q' → ∀ obj, jLookup schemas x = some obj →
       ∀ y ∈ extract_refs_from_obj obj, y ∈ r') := by
  unfold collect_step at h
  cases hpop : pyPop q with
  | none => rw [hpop] at h; exact absurd h (by simp)
  | some popped =>
    obtain ⟨schema_name, queueRest⟩ := popped
    rw [hpop] at h
    dsimp only at h
    have hqeq : q = queueRest ++ [schema_name] := pyPop_eq hpop
    have hname_r : schema_name ∈ r := hqr _ (by rw [hqeq]; simp)
    cases hlook : jLookup schemas schema_name with
    | none =>
      rw [hlook] at h
      simp only [Option.some.injEq, Prod.mk.injEq] at h
      obtain ⟨hr, hq⟩ := h
      subst hr; subst hq
      refine ⟨fun x hx => hqr x (by rw [hqeq]; exact List.mem_append_left _ hx),
        hsound, hseeds, ?_⟩
      intro x hx hxq obj hobj y hy
      by_cases hxname : x = schema_name
      · rw [hxname] at hobj
        rw [hobj] at hlook
        exact absurd hlook (by simp)
      · refine hclosed x hx ?_ obj hobj y hy
        rw [hqeq]
        intro hmem
        rcases List.mem_append.mp hmem with hh | hh
        · exact hxq hh
        · exact hxname (List.mem_singleton.mp hh)
    | some schema_obj =>
      rw [hlook] at h
      simp only at h
      have hsound' : ∀ x ∈ addAll r (extract_refs_from_obj schema_obj),
          Reachable schemas seeds x := by
        intro x hx
        rcases mem_addAll_iff.mp hx with hxr | hxe
        · exact hsound x hxr
        · exact Reachable.step (hsound _ hname_r) hlook hxe
      by_cases hgrow : r.length < (addAll r (extract_refs_from_obj schema_obj)).length
      · rw [if_pos hgrow] at h
        simp only [Option.some.injEq, Prod.mk.injEq] at h
        obtain ⟨hr, hq⟩ := h
        subst hr; subst hq
        refine ⟨?_, hsound', fun x hx => subset_addAll r _ (hseeds x hx), ?_⟩
        · intro x hx
          rcases List.mem_append.mp hx with hqr' | hnew
          · exact subset_addAll r _
              (hqr x (by rw [hqeq]; exact List.mem_append_left _ hqr'))
          · exact (List.mem_filter.mp hnew).1
        · intro x hx hxq obj hobj y hy
          have hxqr : x ∉ queueRest := fun hmem => hxq (List.mem_append_left _ hmem)
          by_cases hxname : x = schema_name
          · subst hxname
            rw [hlook] at hobj
            injection hobj with hobj
            rw [← hobj] at hy
            exact mem_addAll_iff.mpr (Or.inr hy)
          · exfalso
            apply hxq
            apply List.mem_append_right
            apply List.mem_filter.mpr
            refine ⟨hx, ?_⟩
            simp only [Bool.and_eq_true, decide_eq_true_eq]
            exact ⟨hxqr, hxname⟩
      · rw [if_neg hgrow] at h
        simp only [Option.some.injEq, Prod.mk.injEq] at h
        obtain ⟨hr, hq⟩ := h
        have heq : addAll r (extract_refs_from_obj schema_obj) = r :=
          addAll_length_eq (le_antisymm (by omega) (addAll_length_ge _ _))
        subst hr; subst hq
        refine ⟨?_, hsound', fun x hx => subset_addAll r _ (hseeds x hx), ?_⟩
        · intro x hx
          exact subset_addAll r _ (hqr x (by rw [hqeq]; exact List.mem_append_left _ hx))
        · intro x hx hxq obj hobj y hy
          by_cases hxname : x = schema_name
          · subst hxname
            rw [hlook] at hobj
            injection hobj with hobj
            rw [← hobj] at hy
            exact mem_addAll_iff.mpr (Or.inr hy)
          · rw [heq] at hx ⊢
            refine hclosed x hx ?_ obj hobj y hy
            rw [hqeq]
            intro hmem
            rcases List.mem_append.mp hmem with hh | hh
            · exact hxq hh
            · exact hxname (List.mem_singleton.mp hh)

end SAO

namespace SAO

theorem collect_step_none_queue {schemas : List (String × Json)} {r q : List String}
    (h : collect_step schemas r q = none) : q = [] := by
  unfold collect_step at h
  cases hpop : pyPop q with
  | none => exact pyPop_none hpop
  | some popped =>
    obtain ⟨schema_name, queueRest⟩ := popped
    rw [hpop] at h
    dsimp only at h
    cases hlook : jLookup schemas schema_name with
    | none => rw [hlook] at h; exact absurd h (by simp)
    | some schema_obj =>
      rw [hlook] at h
      simp only at h
      by_cases hgrow : r.length <
          (addAll r (extract_refs_from_obj schema_obj)).length
      · rw [if_pos hgrow] at h; exact absurd h (by simp)
      · rw [if_neg hgrow] at h; exact absurd h (by simp)

theorem collect_loop_spec (schemas : List (String × Json)) (seeds : List String) :
    ∀ st : List String × List String,
      (∀ x ∈ st.2, x ∈ st.1) →
      (∀ x ∈ st.1, Reachable schemas seeds x) →
      (∀ x ∈ seeds, x ∈ st.1) →
      (∀ x ∈ st.1, x ∉ st.2 → ∀ obj, jLookup schemas x = some obj →
         ∀ y ∈ extract_refs_from_obj obj, y ∈ st.1) →
      ∀ z, z ∈ collect_loop schemas st ↔ Reachable schemas seeds z := by
  intro st
  induction st using collect_loop.induct schemas with
  | case1 r q hnone =>
    intro hqr hsound hseeds hclosed z
    have hq : q = [] := collect_step_none_queue hnone
    subst hq
    rw [collect_loop, hnone]
    constructor
    · exact hsound z
    · intro hz
      induction hz with
      | seed hx => exact hseeds _ hx
      | step hre hlook hy ih =>
        exact hclosed _ ih (List.not_mem_nil _) _ hlook _ hy
  | case2 r q st' hstep ih =>
    intro hqr hsound hseeds hclosed z
    rw [collect_loop, hstep]
    obtain ⟨hqr', hsound', hseeds', hclosed'⟩ :=
      collect_step_invariants schemas seeds r q st'.1 st'.2 hstep hqr hsound hseeds hclosed
    exact ih hqr' hsound' hseeds' hclosed' z

/-- The result of `collect_referenced_schemas` is exactly the set of schema
names reachable from the kept paths' references. -/
theorem collect_referenced_schemas_spec (spec : Json) (paths_to_keep : List String)
    (z : String) :
    z ∈ collect_referenced_schemas spec paths_to_keep ↔
      Reachable (jFields2 spec "components" "schemas") (seedRefs spec paths_to_keep) z := by
  unfold collect_referenced_schemas
  apply collect_loop_spec
  · exact fun x hx => hx
  · exact fun x hx => Reachable.seed hx
  · exact fun x hx => hx
  · intro x hx hxq
    exact absurd hx hxq

end SAO

namespace SAO

theorem jHasKey_filter_mem (l : List (String × Json)) (R : List String) (name : String) :
    jHasKey (l.filter (fun kv => kv.1 ∈ R)) name = true ↔
      (jHasKey l name = true ∧ name ∈ R) := by
  simp only [jHasKey, List.any_eq_true, List.mem_filter, decide_eq_true_eq]
  constructor
  · rintro ⟨kv, ⟨hkv, hR⟩, hn⟩
    rw [hn] at hR
    exact ⟨⟨kv, hkv, hn⟩, hR⟩
  · rintro ⟨⟨kv, hkv, hn⟩, hR⟩
    rw [← hn] at hR
    exact ⟨kv, ⟨hkv, hR⟩, hn⟩

theorem pruned_components_schemas (spec : Json) :
    jFields2 (prune_spec spec) "components" "schemas" =
      (jFields2 spec "components" "schemas").filter
        (fun kv => kv.1 ∈ collect_referenced_schemas spec get_required_endpoints) := by
  by_cases hauth :
      jHasKey (jFields2 spec "components" "securitySchemes") "ApiKeyAuth" = true
  · simp [prune_spec, prune_spec_with, hauth]
    rfl
  · simp [prune_spec, prune_spec_with, Bool.eq_false_iff.mpr hauth]
    rfl

/-- **C3.** A schema name appears in the pruned document's schema components
exactly when it is defined in the source document's schema components and is
reachable from the kept paths' operation definitions via zero or more reference
hops; every schema not reachable is absent from the pruned document. -/
theorem pruned_schema_membership (spec : Json) (name : String) :
    jHasKey (jFields2 (prune_spec spec) "components" "schemas") name = true ↔
      (jHasKey (jFields2 spec "components" "schemas") name = true ∧
       Reachable (jFields2 spec "components" "schemas")
         (seedRefs spec get_required_endpoints) name) := by
  rw [pruned_components_schemas, jHasKey_filter_mem]
  constructor
  · rintro ⟨hdef, hmem⟩
    exact ⟨hdef, (collect_referenced_schemas_spec spec get_required_endpoints name).mp hmem⟩
  · rintro ⟨hdef, hre⟩
    exact ⟨hdef, (collect_referenced_schemas_spec spec get_required_endpoints name).mpr hre⟩

end SAO

namespace SAO

/-! ## Round-trip: the generated-declarations text and the Snapshot Parser

The claims compare the declaration set the Type Compiler produced with what the
Snapshot Parser recovers from the generated text.  `compiled_decls` is that
projection of the compiler's output: for each generated type its emitted Swift
name, its kind, its property identifiers with the exact emitted type text
(optionality marker included), and the set of its emitted case identifiers
(sorted, as the parser stores case sets). -/
def compiled_decls (spec : Json) : List (String × ParsedType) :=
  (schemasOf spec).filterMap (fun kv =>
    if isEnumSchema kv.2 then
      some (swift_class_name kv.1, ParsedType.enum
        (sortedSet
          (((jItems ((jLookup (jFields kv.2) "enum").getD (Json.arr []))).map jStr).map
            enum_case_name)))
    else none)
  ++ (schemasOf spec).filterMap (fun kv =>
    if isStructSchema kv.2 then
      some (swift_class_name kv.1, ParsedType.struct
        ((propertiesOf kv.2).map (fun p =>
          (swift_property_name p.1, prop_type_text spec kv.2 p.1 p.2))))
    else none)

/-- A non-empty string of `[A-Za-z0-9_]` characters: what the snapshot parser's
identifier captures can recover. -/
def goodIdentStr (s : String) : Bool := !s.data.isEmpty && s.data.all identChar

/-- Pairwise distinct strings. -/
def distinctStrs : List String → Bool
  | [] => true
  | s :: rest => !rest.contains s && distinctStrs rest

/-- Raw text that may appear inside an emitted line without breaking the
line/brace structure the parser relies on. -/
def goodRawText (s : String) : Bool := s.data.all safeTextChar

/-- A type text the property regex recovers verbatim: non-empty, no structural
characters, no `'='` (excluded by the regex class), no `'/'` (which could start
a trailing-comment match), and no leading/trailing whitespace (stripped by the
parser). -/
def goodTypeText (s : String) : Bool :=
  match s.data with
  | [] => false
  | c :: cs =>
    (c :: cs).all (fun d => safeTextChar d && !(d = '=') && !(d = '/')) &&
    !pySpaceChar c && !pySpaceChar ((c :: cs).getLast (by simp))

/-- Well-formedness of a schema selected by the enum pass: the emitted Swift
name is an identifier, the raw schema name is line-safe, and the enum values
are line-safe strings. -/
def good_enum_schema (name : String) (schema : Json) : Bool :=
  goodIdentStr (swift_class_name name) && goodRawText name &&
  (match jLookup (jFields schema) "enum" with
   | some (Json.arr items) => items.all (fun j =>
       match j with
       | Json.str s => goodRawText s
       | _ => false)
   | none => true
   | some _ => false)

/-- Well-formedness of a schema selected by the struct pass: identifier-shaped
emitted names, line-safe raw names and descriptions, recoverable type texts,
and pairwise distinct generated property identifiers. -/
def good_struct_schema (spec : Json) (name : String) (schema : Json) : Bool :=
  goodIdentStr (swift_class_name name) && goodRawText name &&
  (match jLookup (jFields schema) "properties" with
   | some (Json.obj _) => true
   | none => true
   | some _ => false) &&
  distinctStrs ((propertiesOf schema).map (fun p => swift_property_name p.1)) &&
  (propertiesOf schema).all (fun p =>
    goodIdentStr (swift_property_name p.1) && goodRawText p.1 &&
    goodTypeText (prop_type_text spec schema p.1 p.2) &&
    goodRawText (clean_description (descriptionOf p.2)))

/-- Well-formedness of a whole document for the round-trip: every selected
schema is well-formed and the emitted type names are pairwise distinct. -/
def c1_good_doc (spec : Json) : Bool :=
  distinctStrs
    ((schemasOf spec).filterMap (fun kv =>
        if isEnumSchema kv.2 then some (swift_class_name kv.1) else none) ++
     (schemasOf spec).filterMap (fun kv =>
        if isStructSchema kv.2 then some (swift_class_name kv.1) else none)) &&
  (schemasOf spec).all (fun kv =>
    (!(isEnumSchema kv.2) || good_enum_schema kv.1 kv.2) &&
    (!(isStructSchema kv.2) || good_struct_schema spec kv.1 kv.2))

end SAO

namespace SAO

/-- A schema whose single property name `foo-bar` is not an identifier the
snapshot parser's property regex can capture. -/
def c1badSchema : Json :=
  Json.obj [("type", Json.str "object"),
    ("properties", Json.obj [("foo-bar", Json.obj [("type", Json.str "string")])])]

/-- A source document whose pruning yields a document containing `c1badSchema`. -/
def c1cexSrc : Json :=
  Json.obj [
    ("openapi", Json.str "3.0.1"),
    ("info", Json.obj []),
    ("servers", Json.arr []),
    ("paths", Json.obj [("/responses", Json.obj [("post",
       Json.obj [("$ref", Json.str "#/components/schemas/Bad")])])]),
    ("components", Json.obj [("schemas", Json.obj [("Bad", c1badSchema)])])]

theorem c1_collect_eval :
    collect_referenced_schemas c1cexSrc get_required_endpoints = ["Bad"] := by
  unfold collect_referenced_schemas
  have h1 : seedRefs c1cexSrc get_required_endpoints = ["Bad"] := by decide
  rw [h1]
  have h2 : jFields2 c1cexSrc "components" "schemas" = [("Bad", c1badSchema)] := rfl
  rw [h2]
  have hstep1 : collect_step [("Bad", c1badSchema)] ["Bad"] ["Bad"] = some (["Bad"], []) := by
    decide
  have hstep2 : collect_step [("Bad", c1badSchema)] ["Bad"] [] = none := by decide
  rw [collect_loop]
  split
  · rfl
  · next st' heq =>
    rw [hstep1] at heq
    injection heq with heq
    rw [← heq]
    rw [collect_loop]
    split
    · rfl
    · next st2 heq2 =>
      rw [hstep2] at heq2
      cases heq2

/-- The pruned document produced by `prune_spec` on `c1cexSrc`. -/
def c1cexPruned : Json := prune_spec_with c1cexSrc ["Bad"]

theorem c1_prune_eval : prune_spec c1cexSrc = c1cexPruned := by
  unfold prune_spec
  rw [c1_collect_eval]
  rfl

/-- **C1 (counterexample).**  A pruned schema document on which parsing the
generated-declarations text does not recover the declaration set the compiler
produced: the compiler emits the property `foo-bar : String?` for
`GeneratedBad`, but the snapshot parser's property regex cannot capture the
non-identifier name `foo-bar`, so the parsed record has no properties at all. -/
theorem roundtrip_counterexample :
    prune_spec c1cexSrc = c1cexPruned ∧
    compiled_decls c1cexPruned =
      [("GeneratedBad", ParsedType.struct [("foo-bar", "String?")])] ∧
    parse_models (generate_models c1cexPruned) =
      [("GeneratedBad", ParsedType.struct [])] ∧
    parse_models (generate_models c1cexPruned) ≠ compiled_decls c1cexPruned := by
  refine ⟨c1_prune_eval, by decide, by decide, by decide⟩

end SAO

namespace SAO

theorem takeWhile_all_append {p : Char → Bool} {l : List Char} (c0 : Char) (r : List Char)
    (hl : l.all p = true) (hc : p c0 = false) :
    (l ++ c0 :: r).takeWhile p = l ∧ (l ++ c0 :: r).dropWhile p = c0 :: r := by
  induction l with
  | nil => simp [List.takeWhile, List.dropWhile, hc]
  | cons a l ih =>
    simp only [List.all_cons, Bool.and_eq_true] at hl
    simp [List.takeWhile, List.dropWhile, hl.1, ih hl.2]

theorem identChar_not_space {c : Char} (h : identChar c = true) : pySpaceChar c = false := by
  cases hc : pySpaceChar c
  · rfl
  · exfalso
    simp only [pySpaceChar, Bool.or_eq_true, decide_eq_true_eq] at hc
    rcases hc with ((((rfl | rfl) | rfl) | rfl) | rfl) <;> simp [identChar] at h

theorem identChar_not_struct {c : Char} (h : identChar c = true) :
    c ≠ '\x7b' ∧ c ≠ '\x7d' ∧ c ≠ '\n' := by
  refine ⟨?_, ?_, ?_⟩ <;> rintro rfl <;> simp [identChar] at h

theorem safeTextChar_not_struct {c : Char} (h : safeTextChar c = true) :
    c ≠ '\x7b' ∧ c ≠ '\x7d' ∧ c ≠ '\n' := by
  refine ⟨?_, ?_, ?_⟩ <;> rintro rfl <;> simp [safeTextChar] at h

theorem join_nl_cons (s : String) {rest : List String} (h : rest ≠ []) :
    join_nl (s :: rest) = s ++ "\n" ++ join_nl rest := by
  cases rest with
  | nil => exact absurd rfl h
  | cons t ts => rfl

theorem join_nl_append {A B : List String} (hA : A ≠ []) (hB : B ≠ []) :
    join_nl (A ++ B) = join_nl A ++ "\n" ++ join_nl B := by
  induction A with
  | nil => exact absurd rfl hA
  | cons a A ih =>
    cases hA' : A with
    | nil =>
      subst hA'
      simp only [List.cons_append, List.nil_append]
      rw [join_nl_cons a hB]
      rfl
    | cons a2 A' =>
      rw [← hA']
      have hAne : A ≠ [] := by rw [hA']; simp
      rw [List.cons_append, join_nl_cons a (by simp [hAne]), join_nl_cons a hAne,
        ih hAne]
      simp [String.append_assoc]

theorem flatten_ne_nil {blocks : List (List String)} (hne : blocks ≠ [])
    (h : ∀ b ∈ blocks, b ≠ []) : blocks.flatten ≠ [] := by
  cases blocks with
  | nil => exact absurd rfl hne
  | cons b bs =>
    have hb : b ≠ [] := h b (List.mem_cons_self b bs)
    cases b with
    | nil => exact absurd rfl hb
    | cons x xs => simp

theorem join_nl_map_join (blocks : List (List String)) (h : ∀ b ∈ blocks, b ≠ []) :
    join_nl (blocks.map join_nl) = join_nl blocks.flatten := by
  induction blocks with
  | nil => rfl
  | cons b bs ih =>
    have hb : b ≠ [] := h b (List.mem_cons_self b bs)
    have hbs : ∀ x ∈ bs, x ≠ [] := fun x hx => h x (List.mem_cons_of_mem b hx)
    cases hbs' : bs with
    | nil =>
      subst hbs'
      simp only [List.map_cons, List.map_nil, List.flatten_cons, List.flatten_nil,
        List.append_nil]
      rfl
    | cons b2 bs' =>
      rw [← hbs']
      have hbsne : bs ≠ [] := by rw [hbs']; simp
      have hmapne : bs.map join_nl ≠ [] := by
        rw [hbs']; simp
      have hflatne : bs.flatten ≠ [] := flatten_ne_nil hbsne hbs
      rw [List.map_cons, join_nl_cons (join_nl b) hmapne, List.flatten_cons,
        join_nl_append hb hflatne, ih hbs]

end SAO

namespace SAO

theorem splitNl_no_nl {l : List Char} (h : '\n' ∉ l) : splitNlChars l = [l] := by
  induction l with
  | nil => rfl
  | cons c cs ih =>
    have hc : c ≠ '\n' := fun hc => h (hc ▸ List.mem_cons_self c cs)
    have hcs : '\n' ∉ cs := fun hm => h (List.mem_cons_of_mem c hm)
    rw [splitNlChars, if_neg hc, ih hcs]

theorem splitNl_append_nl {l : List Char} (r : List Char) (h : '\n' ∉ l) :
    splitNlChars (l ++ '\n' :: r) = l :: splitNlChars r := by
  induction l with
  | nil => simp [splitNlChars]
  | cons c cs ih =>
    have hc : c ≠ '\n' := fun hc => h (hc ▸ List.mem_cons_self c cs)
    have hcs : '\n' ∉ cs := fun hm => h (List.mem_cons_of_mem c hm)
    rw [List.cons_append, splitNlChars, if_neg hc, ih hcs]

theorem splitNl_join_data {L : List String} (hne : L ≠ [])
    (h : ∀ s ∈ L, '\n' ∉ s.data) :
    splitNlChars (join_nl L).data = L.map String.data := by
  induction L with
  | nil => exact absurd rfl hne
  | cons s L ih =>
    cases hL : L with
    | nil =>
      subst hL
      exact splitNl_no_nl (h s (by simp))
    | cons t ts =>
      rw [← hL]
      have hLne : L ≠ [] := by rw [hL]; simp
      rw [join_nl_cons s hLne]
      have hdata : (s ++ "\n" ++ join_nl L).data = s.data ++ '\n' :: (join_nl L).data := by
        simp [String.data_append]
      rw [hdata, splitNl_append_nl _ (h s (List.mem_cons_self s L)),
        ih hLne (fun x hx => h x (List.mem_cons_of_mem s hx))]
      rfl

theorem mk_data (s : String) : String.mk s.data = s := rfl

theorem pySplitlines_join {L : List String} (hne : L ≠ [])
    (h : ∀ s ∈ L, '\n' ∉ s.data) (hlast : L.getLast? = some "") :
    pySplitlines (join_nl L) = L.dropLast := by
  unfold pySplitlines
  rw [splitNl_join_data hne h]
  have hlast' : (L.map String.data).getLast? = some [] := by
    rw [List.getLast?_map, hlast]
    rfl
  rw [if_pos hlast', ← List.map_dropLast]
  have : ∀ M : List String, (M.map String.data).map String.mk = M := by
    intro M
    induction M with
    | nil => rfl
    | cons x xs ihm => simp [ihm, mk_data]
  exact this _

theorem registerDecl_empty_line (ts : List (String × ParsedType)) (isStruct : Bool)
    (name : String) (acc : List String) :
    registerDecl ts isStruct name ("" :: acc) = registerDecl ts isStruct name acc := by
  unfold registerDecl
  congr 1
  cases isStruct
  · rw [if_neg (by simp), if_neg (by simp)]
    unfold enumOfBody
    rw [List.reverse_cons]
    congr 1
    rw [List.filterMap_append]
    simp [match_case, pyStrip, dropSpaces, litChars]
  · rw [if_pos rfl, if_pos rfl]
    unfold structOfBody
    rw [List.reverse_cons]
    congr 1
    rw [List.foldl_append]
    simp [match_prop, pyStrip, dropSpaces, litChars]

/-- A final empty line does not change the parse: it matches no declaration
head, adds no body content, and closes no brace. -/
theorem parse_go_snoc_empty :
    ∀ (lines : List String) (st : ParseState) (types : List (String × ParsedType)),
      parse_go (lines ++ [""]) st types = parse_go lines st types := by
  intro lines
  induction lines with
  | nil =>
    intro st types
    cases st with
    | top => rfl
    | body isStruct name depth acc =>
      rw [List.nil_append, parse_go, parse_go]
      simp only [parse_step, show braceDelta "" = (0 : Int) from rfl, add_zero]
      by_cases hd : depth ≤ 0
      · rw [if_pos hd]
        show parse_finalize ParseState.top (registerDecl types isStruct name ("" :: acc)) =
          parse_finalize (ParseState.body isStruct name depth acc) types
        rw [parse_finalize, parse_finalize, registerDecl_empty_line]
      · rw [if_neg hd]
        show parse_finalize (ParseState.body isStruct name depth ("" :: acc)) types =
          parse_finalize (ParseState.body isStruct name depth acc) types
        rw [parse_finalize, parse_finalize, registerDecl_empty_line]
  | cons l rest ih =>
    intro st types
    rw [List.cons_append, parse_go, parse_go]
    exact ih _ _

end SAO

namespace SAO

/-- Characters that keep a line structurally inert for the parser: no braces
and no newline. -/
def plainChar (c : Char) : Bool := !(c = '\x7b') && !(c = '\x7d') && !(c = '\n')

theorem plain_of_ident {c : Char} (h : identChar c = true) : plainChar c = true := by
  obtain ⟨h1, h2, h3⟩ := identChar_not_struct h
  simp [plainChar, h1, h2, h3]

theorem plain_of_safe {c : Char} (h : safeTextChar c = true) : plainChar c = true := by
  obtain ⟨h1, h2, h3⟩ := safeTextChar_not_struct h
  simp [plainChar, h1, h2, h3]

/-- `plainChar`-monotone transfer to whole strings. -/
def plainStr (s : String) : Bool := s.data.all plainChar

theorem plainStr_append {a b : String} (ha : plainStr a = true) (hb : plainStr b = true) :
    plainStr (a ++ b) = true := by
  simp only [plainStr, String.data_append, List.all_append, Bool.and_eq_true]
  exact ⟨ha, hb⟩

theorem plainStr_of_ident {s : String} (h : s.data.all identChar = true) :
    plainStr s = true := by
  simp only [plainStr, List.all_eq_true] at *
  exact fun c hc => plain_of_ident (h c hc)

theorem plainStr_of_safe {s : String} (h : s.data.all safeTextChar = true) :
    plainStr s = true := by
  simp only [plainStr, List.all_eq_true] at *
  exact fun c hc => plain_of_safe (h c hc)

theorem braceDelta_of_plain {s : String} (h : plainStr s = true) : braceDelta s = 0 := by
  simp only [plainStr, List.all_eq_true, plainChar, Bool.and_eq_true,
    Bool.not_eq_eq_eq_not, Bool.not_true, decide_eq_false_iff_not] at h
  unfold braceDelta
  have h1 : s.data.count '\x7b' = 0 :=
    List.count_eq_zero.mpr (fun hm => (h _ hm).1.1 rfl)
  have h2 : s.data.count '\x7d' = 0 :=
    List.count_eq_zero.mpr (fun hm => (h _ hm).1.2 rfl)
  rw [h1, h2]
  rfl

theorem noNl_of_plain {s : String} (h : plainStr s = true) : '\n' ∉ s.data := by
  simp only [plainStr, List.all_eq_true, plainChar, Bool.and_eq_true,
    Bool.not_eq_eq_eq_not, Bool.not_true, decide_eq_false_iff_not] at h
  exact fun hm => (h _ hm).2 rfl

theorem braceDelta_append (a b : String) :
    braceDelta (a ++ b) = braceDelta a + braceDelta b := by
  unfold braceDelta
  rw [String.data_append, List.count_append, List.count_append]
  push_cast
  ring

theorem containsChar_append (a b : String) (c : Char) :
    containsChar (a ++ b) c = (containsChar a c || containsChar b c) := by
  simp [containsChar, String.data_append, List.any_append]

end SAO

namespace SAO

theorem match_struct_head_decl (SW rest : String) (h : goodIdentStr SW = true) :
    match_struct_head ("public struct " ++ (SW ++ (": " ++ rest))) = some SW := by
  unfold match_struct_head
  simp only [goodIdentStr, Bool.and_eq_true] at h
  obtain ⟨hne, hall⟩ := h
  cases hsw : SW.data with
  | nil => rw [hsw] at hne; simp at hne
  | cons c cs =>
    rw [hsw] at hall
    simp only [List.all_cons, Bool.and_eq_true] at hall
    obtain ⟨hc, hcs⟩ := hall
    have hdata : ("public struct " ++ (SW ++ (": " ++ rest))).data =
        'p' :: 'u' :: 'b' :: 'l' :: 'i' :: 'c' :: ' ' :: 's' :: 't' :: 'r' :: 'u' :: 'c' :: 't' :: ' ' ::
          (c :: (cs ++ (':' :: ' ' :: rest.data))) := by
      simp [String.data_append, hsw]
    rw [hdata]
    have hdw : pySpaceChar c = false := identChar_not_space hc
    have htake : takeIdent (c :: (cs ++ ':' :: ' ' :: rest.data)) =
        (c :: cs, ':' :: ' ' :: rest.data) := by
      have hx := takeWhile_all_append (p := identChar) ':' (' ' :: rest.data)
        (l := c :: cs) (by simp [hc, hcs]) (by decide)
      simp only [List.cons_append] at hx
      simp [takeIdent, hx.1, hx.2]
    norm_num [litChars, spaces1, dropSpaces, List.dropWhile, htake, hdw,
      show pySpaceChar 'p' = false from by decide,
      show pySpaceChar 's' = false from by decide,
      show pySpaceChar ' ' = true from by decide]
    rw [← hsw]

theorem match_enum_head_decl (SW rest : String) (h : goodIdentStr SW = true) :
    match_enum_head ("public enum " ++ (SW ++ (": " ++ rest))) = some SW := by
  unfold match_enum_head
  simp only [goodIdentStr, Bool.and_eq_true] at h
  obtain ⟨hne, hall⟩ := h
  cases hsw : SW.data with
  | nil => rw [hsw] at hne; simp at hne
  | cons c cs =>
    rw [hsw] at hall
    simp only [List.all_cons, Bool.and_eq_true] at hall
    obtain ⟨hc, hcs⟩ := hall
    have hdata : ("public enum " ++ (SW ++ (": " ++ rest))).data =
        'p' :: 'u' :: 'b' :: 'l' :: 'i' :: 'c' :: ' ' :: 'e' :: 'n' :: 'u' :: 'm' :: ' ' ::
          (c :: (cs ++ (':' :: ' ' :: rest.data))) := by
      simp [String.data_append, hsw]
    rw [hdata]
    have hdw : pySpaceChar c = false := identChar_not_space hc
    have htake : takeIdent (c :: (cs ++ ':' :: ' ' :: rest.data)) =
        (c :: cs, ':' :: ' ' :: rest.data) := by
      have hx := takeWhile_all_append (p := identChar) ':' (' ' :: rest.data)
        (l := c :: cs) (by simp [hc, hcs]) (by decide)
      simp only [List.cons_append] at hx
      simp [takeIdent, hx.1, hx.2]
    norm_num [litChars, spaces1, dropSpaces, List.dropWhile, htake, hdw,
      show pySpaceChar 'p' = false from by decide,
      show pySpaceChar 'e' = false from by decide,
      show pySpaceChar ' ' = true from by decide]
    rw [← hsw]

theorem match_struct_head_on_enum (X : String) :
    match_struct_head ("public enum " ++ X) = none := by
  unfold match_struct_head
  have hdata : ("public enum " ++ X).data =
      'p' :: 'u' :: 'b' :: 'l' :: 'i' :: 'c' :: ' ' :: 'e' :: 'n' :: 'u' :: 'm' :: ' ' :: X.data := by
    simp [String.data_append]
  rw [hdata]
  norm_num [litChars, spaces1, dropSpaces, List.dropWhile,
    show pySpaceChar 'p' = false from by decide,
    show pySpaceChar 'e' = false from by decide,
    show pySpaceChar ' ' = true from by decide,
    show ('s' = 'e') = False from by decide]

theorem match_enum_head_on_struct (X : String) :
    match_enum_head ("public struct " ++ X) = none := by
  unfold match_enum_head
  have hdata : ("public struct " ++ X).data =
      'p' :: 'u' :: 'b' :: 'l' :: 'i' :: 'c' :: ' ' :: 's' :: 't' :: 'r' :: 'u' :: 'c' :: 't' :: ' ' :: X.data := by
    simp [String.data_append]
  rw [hdata]
  norm_num [litChars, spaces1, dropSpaces, List.dropWhile,
    show pySpaceChar 'p' = false from by decide,
    show pySpaceChar 's' = false from by decide,
    show pySpaceChar ' ' = true from by decide,
    show ('e' = 's') = False from by decide]

theorem match_struct_head_none_head {line : String} {c : Char} {cs : List Char}
    (hd : line.data = c :: cs) (hsp : pySpaceChar c = false) (hp : c ≠ 'p') :
    match_struct_head line = none := by
  unfold match_struct_head
  rw [hd]
  have : ('p' = c) = False := by simp [Ne.symm hp]
  simp [dropSpaces, List.dropWhile, hsp, litChars, this]

theorem match_enum_head_none_head {line : String} {c : Char} {cs : List Char}
    (hd : line.data = c :: cs) (hsp : pySpaceChar c = false) (hp : c ≠ 'p') :
    match_enum_head line = none := by
  unfold match_enum_head
  rw [hd]
  have : ('p' = c) = False := by simp [Ne.symm hp]
  simp [dropSpaces, List.dropWhile, hsp, litChars, this]

theorem match_prop_none_head {line : String} {c : Char} {cs : List Char}
    (hd : line.data = c :: cs) (hsp : pySpaceChar c = false) (hp : c ≠ 'p') :
    match_prop line = none := by
  unfold match_prop
  rw [hd]
  have : ('p' = c) = False := by simp [Ne.symm hp]
  simp [dropSpaces, List.dropWhile, hsp, litChars, this]

theorem match_case_none_head {line : String} {c : Char} {cs : List Char}
    (hd : line.data = c :: cs) (hsp : pySpaceChar c = false) (hp : c ≠ 'c') :
    match_case line = none := by
  unfold match_case
  rw [hd]
  have : ('c' = c) = False := by simp [Ne.symm hp]
  simp [dropSpaces, List.dropWhile, hsp, litChars, this]

end SAO

namespace SAO

theorem dropWhile_append_all {p : Char → Bool} {front : List Char} (core : List Char)
    (h : ∀ c ∈ front, p c = true) :
    (front ++ core).dropWhile p = core.dropWhile p := by
  induction front with
  | nil => rfl
  | cons c cf ih =>
    rw [List.cons_append, List.dropWhile_cons_of_pos (h c (List.mem_cons_self c cf))]
    exact ih (fun c' hc' => h c' (List.mem_cons_of_mem c hc'))

theorem dropWhile_reverse_of_getLast {p : Char → Bool} {l : List Char} (hne : l ≠ [])
    (h : p (l.getLast hne) = false) : (l.reverse.dropWhile p).reverse = l := by
  have hdecomp : l.dropLast ++ [l.getLast hne] = l := List.dropLast_append_getLast hne
  calc (l.reverse.dropWhile p).reverse
      = ((l.dropLast ++ [l.getLast hne]).reverse.dropWhile p).reverse := by rw [hdecomp]
    _ = ((l.getLast hne :: l.dropLast.reverse).dropWhile p).reverse := by simp
    _ = (l.getLast hne :: l.dropLast.reverse).reverse := by
        rw [List.dropWhile_cons_of_neg (by rw [h]; simp)]
    _ = l := by
        rw [List.reverse_cons, List.reverse_reverse, hdecomp]

/-- Stripping a line that is spaces, then a core whose first and last characters
are not whitespace, yields exactly the core. -/
theorem pyStrip_spec {s : String} {front core : List Char}
    (hdata : s.data = front ++ core)
    (hfront : ∀ c ∈ front, pySpaceChar c = true)
    (hne : core ≠ [])
    (hhead : ∀ c, core.head? = some c → pySpaceChar c = false)
    (hlast : ∀ c, core.getLast? = some c → pySpaceChar c = false) :
    pyStrip s = String.mk core := by
  unfold pyStrip
  rw [hdata, dropWhile_append_all core hfront]
  have hcore : core.dropWhile pySpaceChar = core := by
    cases hc : core with
    | nil => rfl
    | cons c0 cs =>
      rw [List.dropWhile_cons_of_neg]
      rw [hhead c0 (by rw [hc]; rfl)]
      simp
  rw [hcore, dropWhile_reverse_of_getLast hne
    (hlast (core.getLast hne) (List.getLast?_eq_getLast_of_ne_nil hne))]

end SAO

namespace SAO

theorem commentOrEnd_false {r : List Char} (hr : r ≠ [])
    (hchars : ∀ c ∈ r, c ≠ '/')
    (hlast : pySpaceChar (r.getLast hr) = false) :
    commentOrEnd r = false := by
  unfold commentOrEnd
  cases hd : dropSpaces r with
  | nil =>
    exfalso
    have hall : ∀ c ∈ r, pySpaceChar c = true := by
      have := List.dropWhile_eq_nil_iff.mp hd
      simpa using this
    rw [hall (r.getLast hr) (List.getLast_mem hr)] at hlast
    cases hlast
  | cons d ds =>
    have hdmem : d ∈ r := by
      have hsub : List.Sublist (dropSpaces r) r := List.dropWhile_sublist _
      exact hsub.subset (hd ▸ List.mem_cons_self d ds)
    have hne' : d ≠ '/' := hchars d hdmem
    simp [hne']

theorem lazyTypeGroup_full :
    ∀ (T : List Char) (hne : T ≠ []),
      (∀ c ∈ T, c ≠ '=' ∧ c ≠ '/') →
      pySpaceChar (T.getLast hne) = false →
      lazyTypeGroup T = some T := by
  intro T
  induction T with
  | nil => intro hne; exact absurd rfl hne
  | cons c cs ih =>
    intro hne hchars hlast
    have hc : c ≠ '=' := (hchars c (List.mem_cons_self c cs)).1
    cases hcs : cs with
    | nil =>
      subst hcs
      unfold lazyTypeGroup
      rw [if_neg hc]
      rfl
    | cons c2 cs2 =>
      subst hcs
      have hcsne : (c2 :: cs2 : List Char) ≠ [] := by simp
      have hlast2 : (c :: c2 :: cs2).getLast hne = (c2 :: cs2).getLast hcsne :=
        List.getLast_cons hcsne
      have hcomment : commentOrEnd (c2 :: cs2) = false := by
        apply commentOrEnd_false hcsne
        · exact fun x hx => (hchars x (List.mem_cons_of_mem c hx)).2
        · rw [← hlast2]; exact hlast
      have hih : lazyTypeGroup (c2 :: cs2) = some (c2 :: cs2) := by
        apply ih hcsne
        · exact fun x hx => hchars x (List.mem_cons_of_mem c hx)
        · rw [← hlast2]; exact hlast
      unfold lazyTypeGroup
      rw [if_neg hc, hcomment, hih]
      simp

end SAO
namespace SAO

theorem goodTypeText_ne_nil {T : String} (h : goodTypeText T = true) : T.data ≠ [] := by
  unfold goodTypeText at h
  intro hd
  rw [hd] at h
  cases h

theorem goodTypeText_facts {T : String} {c : Char} {cs : List Char}
    (hd : T.data = c :: cs) (h : goodTypeText T = true) :
    (∀ d ∈ c :: cs, safeTextChar d = true ∧ d ≠ '=' ∧ d ≠ '/') ∧
    pySpaceChar c = false ∧
    (∀ d, (c :: cs).getLast? = some d → pySpaceChar d = false) := by
  unfold goodTypeText at h
  rw [hd] at h
  rw [Bool.and_eq_true, Bool.and_eq_true] at h
  obtain ⟨⟨hall, hc⟩, hl⟩ := h
  refine ⟨?_, ?_, ?_⟩
  · intro d hdm
    have hq := List.all_eq_true.mp hall d hdm
    simp only [Bool.and_eq_true, Bool.not_eq_true', decide_eq_false_iff_not] at hq
    exact ⟨hq.1.1, hq.1.2, hq.2⟩
  · simpa using hc
  · intro d hdl
    have hne : (c :: cs : List Char) ≠ [] := by simp
    rw [List.getLast?_eq_getLast_of_ne_nil hne] at hdl
    injection hdl with hdl
    subst hdl
    simpa using hl

theorem pyStrip_type {T : String} (hT : goodTypeText T = true) : pyStrip T = T := by
  cases htd : T.data with
  | nil => exact absurd htd (goodTypeText_ne_nil hT)
  | cons c cs =>
    obtain ⟨hall, hc, hlast⟩ := goodTypeText_facts htd hT
    have := @pyStrip_spec T [] (c :: cs)
      (by rw [htd]; rfl) (by intro x hx; cases hx) (by simp)
      (by intro d hdm; injection hdm with hdm; rw [← hdm]; exact hc) hlast
    rw [this, ← htd]

theorem match_prop_letline (N T : String) (hN : goodIdentStr N = true)
    (hT : goodTypeText T = true) :
    match_prop (pyStrip ("    public let " ++ (N ++ (": " ++ T)))) = some (N, T) := by
  simp only [goodIdentStr, Bool.and_eq_true] at hN
  obtain ⟨hNne, hNall⟩ := hN
  cases hnd : N.data with
  | nil => rw [hnd] at hNne; simp at hNne
  | cons a as =>
    rw [hnd] at hNall
    simp only [List.all_cons, Bool.and_eq_true] at hNall
    obtain ⟨ha, has⟩ := hNall
    cases htd : T.data with
    | nil => exact absurd htd (goodTypeText_ne_nil hT)
    | cons b bs =>
      obtain ⟨hTall, hb, hTlast⟩ := goodTypeText_facts htd hT
      have hdata : ("    public let " ++ (N ++ (": " ++ T))).data =
          [' ',' ',' ',' '] ++
          ('p' :: 'u' :: 'b' :: 'l' :: 'i' :: 'c' :: ' ' :: 'l' :: 'e' :: 't' :: ' ' ::
            (a :: (as ++ ':' :: ' ' :: b :: bs))) := by
        simp [String.data_append, hnd, htd]
      have hcorelast : ('p' :: 'u' :: 'b' :: 'l' :: 'i' :: 'c' :: ' ' :: 'l' :: 'e' :: 't' :: ' ' ::
            (a :: (as ++ ':' :: ' ' :: b :: bs)) : List Char).getLast? =
          (b :: bs : List Char).getLast? := by
        have h1 : ('p' :: 'u' :: 'b' :: 'l' :: 'i' :: 'c' :: ' ' :: 'l' :: 'e' :: 't' :: ' ' ::
            (a :: (as ++ ':' :: ' ' :: b :: bs)) : List Char) =
            (['p','u','b','l','i','c',' ','l','e','t',' ',a] ++ as) ++
              ([':',' '] ++ (b :: bs)) := by simp
        rw [h1, List.getLast?_append_of_ne_nil _ (by simp),
          List.getLast?_append_of_ne_nil _ (by simp)]
      have hstrip := @pyStrip_spec ("    public let " ++ (N ++ (": " ++ T)))
        [' ',' ',' ',' ']
        ('p' :: 'u' :: 'b' :: 'l' :: 'i' :: 'c' :: ' ' :: 'l' :: 'e' :: 't' :: ' ' ::
          (a :: (as ++ ':' :: ' ' :: b :: bs)))
        hdata (by decide) (by simp)
        (by intro d hdm; injection hdm with hdm; rw [← hdm]; decide)
        (by intro d hdl; rw [hcorelast] at hdl; exact hTlast d hdl)
      rw [hstrip]
      have htake : takeIdent (a :: (as ++ ':' :: ' ' :: b :: bs)) =
          (a :: as, ':' :: ' ' :: b :: bs) := by
        have hx := takeWhile_all_append (p := identChar) ':' (' ' :: b :: bs)
          (l := a :: as) (by simp [ha, has]) (by decide)
        simp only [List.cons_append] at hx
        simp [takeIdent, hx.1, hx.2]
      have hdw : pySpaceChar a = false := identChar_not_space ha
      have hlazy : lazyTypeGroup (b :: bs) = some (b :: bs) := by
        apply lazyTypeGroup_full (b :: bs) (by simp)
        · exact fun x hx => ⟨(hTall x hx).2.1, (hTall x hx).2.2⟩
        · have hne : (b :: bs : List Char) ≠ [] := by simp
          exact hTlast _ (List.getLast?_eq_getLast_of_ne_nil hne)
      unfold match_prop
      norm_num [litChars, spaces1, dropSpaces, List.dropWhile, htake, hdw, hb, hlazy,
        show pySpaceChar 'p' = false from by decide,
        show pySpaceChar 'l' = false from by decide,
        show pySpaceChar ':' = false from by decide,
        show pySpaceChar ' ' = true from by decide]
      rw [← hnd, ← htd]
      exact ⟨rfl, rfl⟩

theorem match_case_caseline (I v : String) (hI : goodIdentStr I = true) :
    match_case (pyStrip ("    case " ++ (I ++ (" = \"" ++ (v ++ "\""))))) = some I := by
  simp only [goodIdentStr, Bool.and_eq_true] at hI
  obtain ⟨hIne, hIall⟩ := hI
  cases hid : I.data with
  | nil => rw [hid] at hIne; simp at hIne
  | cons a as =>
    rw [hid] at hIall
    simp only [List.all_cons, Bool.and_eq_true] at hIall
    obtain ⟨ha, has⟩ := hIall
    have hdata : ("    case " ++ (I ++ (" = \"" ++ (v ++ "\"")))).data =
        [' ',' ',' ',' '] ++
        ('c' :: 'a' :: 's' :: 'e' :: ' ' ::
          (a :: (as ++ ' ' :: '=' :: ' ' :: '"' :: (v.data ++ ['"'])))) := by
      simp [String.data_append, hid]
    have hcorelast : ('c' :: 'a' :: 's' :: 'e' :: ' ' ::
          (a :: (as ++ ' ' :: '=' :: ' ' :: '"' :: (v.data ++ ['"']))) : List Char).getLast? =
        some '"' := by
      have h1 : ('c' :: 'a' :: 's' :: 'e' :: ' ' ::
          (a :: (as ++ ' ' :: '=' :: ' ' :: '"' :: (v.data ++ ['"']))) : List Char) =
          ('c' :: 'a' :: 's' :: 'e' :: ' ' :: a :: as) ++
            ([' ','=',' ','"'] ++ (v.data ++ ['"'])) := by
        simp
      rw [h1, List.getLast?_append_of_ne_nil _ (by simp),
        List.getLast?_append_of_ne_nil _ (by simp),
        List.getLast?_append_of_ne_nil _ (by simp)]
      rfl
    have hstrip := @pyStrip_spec ("    case " ++ (I ++ (" = \"" ++ (v ++ "\""))))
      [' ',' ',' ',' ']
      ('c' :: 'a' :: 's' :: 'e' :: ' ' ::
        (a :: (as ++ ' ' :: '=' :: ' ' :: '"' :: (v.data ++ ['"']))))
      hdata (by decide) (by simp)
      (by intro d hdm; injection hdm with hdm; rw [← hdm]; decide)
      (by intro d hdl; rw [hcorelast] at hdl; injection hdl with hdl; rw [← hdl]; decide)
    rw [hstrip]
    have htake : takeIdent (a :: (as ++ ' ' :: '=' :: ' ' :: '"' :: (v.data ++ ['"']))) =
        (a :: as, ' ' :: '=' :: ' ' :: '"' :: (v.data ++ ['"'])) := by
      have hx := takeWhile_all_append (p := identChar) ' '
        ('=' :: ' ' :: '"' :: (v.data ++ ['"']))
        (l := a :: as) (by simp [ha, has]) (by decide)
      simp only [List.cons_append] at hx
      simp [takeIdent, hx.1, hx.2]
    have hdw : pySpaceChar a = false := identChar_not_space ha
    unfold match_case
    norm_num [litChars, spaces1, dropSpaces, List.dropWhile, htake, hdw,
      show pySpaceChar 'c' = false from by decide,
      show pySpaceChar ' ' = true from by decide]
    rw [← hid]

theorem identChar_map_enum (b : Char) :
    identChar (if pyIsAlnum b || b = '_' then b else '_') = true := by
  by_cases h : pyIsAlnum b || b = '_'
  · rw [if_pos h]
    rcases Bool.or_eq_true _ _ |>.mp h with h1 | h2
    · simp [identChar, pyIsAlnum] at h1 ⊢
      tauto
    · simp only [decide_eq_true_eq] at h2
      simp [identChar, h2]
  · rw [if_neg h]
    decide

def caseAdjust (l : List Char) : String :=
  match l with
  | [] => String.mk l
  | c :: _ => if c.isDigit then "case_" ++ String.mk l else String.mk l

theorem enum_case_finish (l : List Char) (hall : ∀ c ∈ l, identChar c = true) :
    goodIdentStr (if caseAdjust l = "" then "unknown" else caseAdjust l) = true := by
  cases l with
  | nil => decide
  | cons c cs =>
    have hc : identChar c = true := hall c (List.mem_cons_self c cs)
    have hallcs : cs.all identChar = true :=
      List.all_eq_true.mpr (fun x hx => hall x (List.mem_cons_of_mem c hx))
    have hne : String.mk (c :: cs) ≠ "" := by
      intro h
      have := congrArg String.data h
      simp at this
    unfold caseAdjust
    by_cases hd : c.isDigit
    · simp only [if_pos hd]
      have hne2 : ("case_" ++ String.mk (c :: cs) : String) ≠ "" := by
        intro h
        have := congrArg String.data h
        simp [String.data_append] at this
      rw [if_neg hne2]
      simp [goodIdentStr, String.data_append, hc, hallcs] <;> decide
    · simp only [if_neg hd]
      rw [if_neg hne]
      simp [goodIdentStr, hc, hallcs] <;> decide

theorem enum_case_name_good (v : String) : goodIdentStr (enum_case_name v) = true := by
  have h := enum_case_finish
    ((pyReplace (pyReplace (pyReplace (pyLower v) "." "_") "-" "_") " " "_").data.map
      (fun c => if pyIsAlnum c || c = '_' then c else '_'))
    (fun c hc => by
      rw [List.mem_map] at hc
      obtain ⟨b, _, hb⟩ := hc
      rw [← hb]
      exact identChar_map_enum b)
  exact h

end SAO
namespace SAO

theorem parse_step_top_skip (l : String) (types : List (String × ParsedType))
    (h1 : match_struct_head l = none) (h2 : match_enum_head l = none) :
    parse_step l ParseState.top types = (ParseState.top, types) := by
  unfold parse_step
  rw [h1, h2]

theorem parse_go_top_skip (l : String) (rest : List String) (types : List (String × ParsedType))
    (h1 : match_struct_head l = none) (h2 : match_enum_head l = none) :
    parse_go (l :: rest) ParseState.top types = parse_go rest ParseState.top types := by
  rw [parse_go, parse_step_top_skip l types h1 h2]

theorem parse_step_top_struct (l : String) (types : List (String × ParsedType)) (SW : String)
    (h1 : match_struct_head l = some SW) (hc : containsChar l '\x7b' = true) :
    parse_step l ParseState.top types =
      (ParseState.body true SW (braceDelta l) [], types) := by
  unfold parse_step
  rw [h1, hc]
  simp

theorem parse_step_top_enum (l : String) (types : List (String × ParsedType)) (SW : String)
    (h1 : match_struct_head l = none) (h2 : match_enum_head l = some SW)
    (hc : containsChar l '\x7b' = true) :
    parse_step l ParseState.top types =
      (ParseState.body false SW (braceDelta l) [], types) := by
  unfold parse_step
  rw [h1, h2, hc]
  simp

theorem parse_step_body_stay (l : String) (types : List (String × ParsedType))
    (isStruct : Bool) (SW : String) (depth : Int) (acc : List String)
    (h : ¬(depth + braceDelta l ≤ 0)) :
    parse_step l (ParseState.body isStruct SW depth acc) types =
      (ParseState.body isStruct SW (depth + braceDelta l) (l :: acc), types) := by
  unfold parse_step
  dsimp only
  rw [if_neg h]

theorem parse_step_body_close (l : String) (types : List (String × ParsedType))
    (isStruct : Bool) (SW : String) (depth : Int) (acc : List String)
    (h : depth + braceDelta l ≤ 0) :
    parse_step l (ParseState.body isStruct SW depth acc) types =
      (ParseState.top, registerDecl types isStruct SW (l :: acc)) := by
  unfold parse_step
  dsimp only
  rw [if_pos h]

theorem parse_go_body_stay (l : String) (rest : List String)
    (types : List (String × ParsedType)) (isStruct : Bool) (SW : String) (depth : Int)
    (acc : List String) (h : ¬(depth + braceDelta l ≤ 0)) :
    parse_go (l :: rest) (ParseState.body isStruct SW depth acc) types =
      parse_go rest (ParseState.body isStruct SW (depth + braceDelta l) (l :: acc)) types := by
  rw [parse_go, parse_step_body_stay l types isStruct SW depth acc h]

theorem parse_go_body_close (l : String) (rest : List String)
    (types : List (String × ParsedType)) (isStruct : Bool) (SW : String) (depth : Int)
    (acc : List String) (h : depth + braceDelta l ≤ 0) :
    parse_go (l :: rest) (ParseState.body isStruct SW depth acc) types =
      parse_go rest ParseState.top (registerDecl types isStruct SW (l :: acc)) := by
  rw [parse_go, parse_step_body_close l types isStruct SW depth acc h]

/-- Accumulating a run of brace-neutral lines inside a body at positive depth. -/
theorem parse_go_body_accum (ls : List String) :
    ∀ (rest : List String) (types : List (String × ParsedType)) (isStruct : Bool)
      (SW : String) (depth : Int) (acc : List String),
      (∀ l ∈ ls, braceDelta l = 0) → 0 < depth →
      parse_go (ls ++ rest) (ParseState.body isStruct SW depth acc) types =
        parse_go rest (ParseState.body isStruct SW depth (ls.reverse ++ acc)) types := by
  induction ls with
  | nil => intro rest types isStruct SW depth acc _ _; rfl
  | cons l ls ih =>
    intro rest types isStruct SW depth acc hz hd
    have hl : braceDelta l = 0 := hz l (List.mem_cons_self l ls)
    rw [List.cons_append, parse_go_body_stay l _ types isStruct SW depth acc
      (by rw [hl]; omega)]
    rw [hl, add_zero]
    rw [ih rest types isStruct SW depth (l :: acc)
      (fun x hx => hz x (List.mem_cons_of_mem l hx)) hd]
    simp

theorem dropWhile_append_single {p : Char → Bool} (xs : List Char) {c : Char}
    (hc : p c = false) : (xs ++ [c]).dropWhile p = xs.dropWhile p ++ [c] := by
  induction xs with
  | nil => simp [List.dropWhile, hc]
  | cons x xs ih =>
    by_cases hx : p x
    · rw [List.cons_append, List.dropWhile_cons_of_pos hx, List.dropWhile_cons_of_pos hx, ih]
    · rw [List.cons_append, List.dropWhile_cons_of_neg hx, List.dropWhile_cons_of_neg hx,
        List.cons_append]

/-- The stripped form of a line whose space-stripped data starts with a
non-space character `c` still starts with `c`. -/
theorem pyStrip_head {s : String} {c : Char} {pre : List Char}
    (hdrop : dropSpaces s.data = c :: pre) (hc : pySpaceChar c = false) :
    ∃ l', (pyStrip s).data = c :: l' := by
  refine ⟨((pre.reverse.dropWhile pySpaceChar).reverse), ?_⟩
  show ((s.data.dropWhile pySpaceChar).reverse.dropWhile pySpaceChar).reverse = _
  have hdrop' : s.data.dropWhile pySpaceChar = c :: pre := hdrop
  rw [hdrop', List.reverse_cons, dropWhile_append_single _ hc]
  simp

theorem match_prop_strip_none {b : String} {c : Char} {pre : List Char}
    (hdrop : dropSpaces b.data = c :: pre) (hcsp : pySpaceChar c = false) (hcp : c ≠ 'p') :
    match_prop (pyStrip b) = none := by
  obtain ⟨l', hl⟩ := pyStrip_head hdrop hcsp
  exact match_prop_none_head hl hcsp hcp

theorem match_case_strip_none {b : String} {c : Char} {pre : List Char}
    (hdrop : dropSpaces b.data = c :: pre) (hcsp : pySpaceChar c = false) (hcp : c ≠ 'c') :
    match_case (pyStrip b) = none := by
  obtain ⟨l', hl⟩ := pyStrip_head hdrop hcsp
  exact match_case_none_head hl hcsp hcp

/-- Lines with no newline character: the joined text splits back into them. -/
def noNlStr (s : String) : Bool := s.data.all (fun c => !(c = '\n'))

theorem noNl_mem {s : String} (h : noNlStr s = true) : '\n' ∉ s.data := by
  simp only [noNlStr, List.all_eq_true, Bool.not_eq_true', decide_eq_false_iff_not] at h
  exact fun hm => h _ hm rfl

theorem noNlStr_append (a b : String) (ha : noNlStr a = true) (hb : noNlStr b = true) :
    noNlStr (a ++ b) = true := by
  simp only [noNlStr, String.data_append, List.all_append, Bool.and_eq_true]
  exact ⟨ha, hb⟩

theorem noNlStr_of_plain {s : String} (h : plainStr s = true) : noNlStr s = true := by
  simp only [plainStr, noNlStr, List.all_eq_true] at *
  intro c hc
  have := h c hc
  simp only [plainChar, Bool.and_eq_true, Bool.not_eq_true', decide_eq_false_iff_not] at this
  simp [this.2]

theorem plain_conformance (spec schema : Json) :
    plainStr (struct_conformance spec schema) = true := by
  show plainStr (if (propertiesOf schema).any
      (fun kv => containsSub (swift_type_from_schema spec kv.2) "[String: Any]")
    then "Codable" else "Codable, Equatable") = true
  split <;> decide

end SAO
namespace SAO

theorem plain_of_goodIdent {s : String} (h : goodIdentStr s = true) : plainStr s = true := by
  simp only [goodIdentStr, Bool.and_eq_true] at h
  exact plainStr_of_ident h.2

theorem plain_of_goodRaw {s : String} (h : goodRawText s = true) : plainStr s = true :=
  plainStr_of_safe h

theorem filterMap_eq_map_of_forall {α β : Type} (f : α → Option β) (g : α → β)
    (l : List α) (h : ∀ x ∈ l, f x = some (g x)) : l.filterMap f = l.map g := by
  induction l with
  | nil => rfl
  | cons x xs ih =>
    rw [List.filterMap_cons, h x (List.mem_cons_self x xs), List.map_cons,
      ih (fun y hy => h y (List.mem_cons_of_mem x hy))]

theorem enum_values_good {name : String} {schema : Json}
    (h : good_enum_schema name schema = true) :
    ∀ v ∈ (jItems ((jLookup (jFields schema) "enum").getD (Json.arr []))).map jStr,
      goodRawText v = true := by
  simp only [good_enum_schema, Bool.and_eq_true] at h
  obtain ⟨-, hmatch⟩ := h
  intro v hv
  cases hlk : jLookup (jFields schema) "enum" with
  | none => rw [hlk] at hv; simp [jItems] at hv
  | some j =>
    rw [hlk] at hmatch hv
    cases j with
    | arr items =>
      simp only [Option.getD] at hv
      rw [List.mem_map] at hv
      obtain ⟨jv, hjv, rfl⟩ := hv
      have := List.all_eq_true.mp hmatch jv hjv
      cases jv with
      | str s => exact this
      | null => cases this
      | bool b => cases this
      | num n => cases this
      | arr a => cases this
      | obj o => cases this
    | null => cases hmatch
    | bool b => cases hmatch
    | num n => cases hmatch
    | str s => cases hmatch
    | obj o => cases hmatch

theorem good_enum_SW {name : String} {schema : Json}
    (h : good_enum_schema name schema = true) :
    goodIdentStr (swift_class_name name) = true := by
  simp only [good_enum_schema, Bool.and_eq_true] at h
  exact h.1.1

theorem good_enum_raw_name {name : String} {schema : Json}
    (h : good_enum_schema name schema = true) : goodRawText name = true := by
  simp only [good_enum_schema, Bool.and_eq_true] at h
  exact h.1.2

theorem parse_go_enum_block (name : String) (schema : Json) (rest : List String)
    (types : List (String × ParsedType)) (h : good_enum_schema name schema = true) :
    parse_go (generate_enum_lines name schema ++ rest) ParseState.top types =
      parse_go rest ParseState.top
        (dictInsert types (swift_class_name name)
          (ParsedType.enum (sortedSet
            (((jItems ((jLookup (jFields schema) "enum").getD (Json.arr []))).map jStr).map
              enum_case_name)))) := by
  have hSW : goodIdentStr (swift_class_name name) = true := good_enum_SW h
  have hname : goodRawText name = true := good_enum_raw_name h
  have hvals := enum_values_good h
  have hlines : generate_enum_lines name schema =
      ("/// Generated enum for " ++ name) ::
      ("public enum " ++ (swift_class_name name ++ ": String, Codable, CaseIterable \x7b")) ::
      ((((jItems ((jLookup (jFields schema) "enum").getD (Json.arr []))).map jStr).map
          (fun value =>
            "    case " ++ (enum_case_name value ++ (" = \"" ++ (value ++ "\""))))) ++
        ["\x7d", ""]) := rfl
  rw [hlines]
  simp only [List.cons_append, List.append_assoc]
  have hd1 : ("/// Generated enum for " ++ name).data =
      '/' :: ("// Generated enum for ".data ++ name.data) := by
    simp [String.data_append]
  rw [parse_go_top_skip _ _ types
    (match_struct_head_none_head hd1 (by decide) (by decide))
    (match_enum_head_none_head hd1 (by decide) (by decide))]
  have hcolon : (": String, Codable, CaseIterable \x7b" : String) =
      ": " ++ "String, Codable, CaseIterable \x7b" := rfl
  have hm2 : match_enum_head
      ("public enum " ++ (swift_class_name name ++ ": String, Codable, CaseIterable \x7b")) =
      some (swift_class_name name) := by
    rw [hcolon]
    exact match_enum_head_decl _ _ hSW
  have hs2 : match_struct_head
      ("public enum " ++ (swift_class_name name ++ ": String, Codable, CaseIterable \x7b")) =
      none := match_struct_head_on_enum _
  have hc2 : containsChar
      ("public enum " ++ (swift_class_name name ++ ": String, Codable, CaseIterable \x7b"))
      '\x7b' = true := by
    rw [containsChar_append, containsChar_append]
    simp [show containsChar ": String, Codable, CaseIterable \x7b" '\x7b' = true from by decide]
  have hb2 : braceDelta
      ("public enum " ++ (swift_class_name name ++ ": String, Codable, CaseIterable \x7b")) =
      1 := by
    rw [braceDelta_append, braceDelta_append, braceDelta_of_plain (plain_of_goodIdent hSW),
      show braceDelta "public enum " = 0 from by decide,
      show braceDelta ": String, Codable, CaseIterable \x7b" = 1 from by decide]
    ring
  rw [parse_go, parse_step_top_enum _ types _ hs2 hm2 hc2, hb2]
  have hdeltas : ∀ l ∈ (((jItems ((jLookup (jFields schema) "enum").getD (Json.arr []))).map
      jStr).map (fun value =>
        "    case " ++ (enum_case_name value ++ (" = \"" ++ (value ++ "\""))))),
      braceDelta l = 0 := by
    intro l hl
    rw [List.mem_map] at hl
    obtain ⟨v, hv, rfl⟩ := hl
    exact braceDelta_of_plain (plainStr_append (by decide)
      (plainStr_append (plain_of_goodIdent (enum_case_name_good v))
        (plainStr_append (by decide)
          (plainStr_append (plain_of_goodRaw (hvals v hv)) (by decide)))))
  rw [parse_go_body_accum _ _ types false _ 1 [] hdeltas (by norm_num)]
  rw [parse_go_body_close _ _ types false _ 1 _
    (by rw [show braceDelta "\x7d" = -1 from by decide]; norm_num)]
  rw [parse_go_top_skip _ _ _ (by decide) (by decide)]
  congr 1
  unfold registerDecl
  rw [if_neg (by simp)]
  congr 1
  have hrev : ("\x7d" :: ((((jItems ((jLookup (jFields schema) "enum").getD
      (Json.arr []))).map jStr).map (fun value =>
        "    case " ++ (enum_case_name value ++ (" = \"" ++ (value ++ "\""))))).reverse ++
      [])).reverse =
      (((jItems ((jLookup (jFields schema) "enum").getD (Json.arr []))).map jStr).map
        (fun value =>
          "    case " ++ (enum_case_name value ++ (" = \"" ++ (value ++ "\""))))) ++
      ["\x7d"] := by
    simp
  rw [hrev]
  unfold enumOfBody
  congr 1
  rw [List.filterMap_append, List.filterMap_map]
  simp only [Function.comp_def]
  rw [filterMap_eq_map_of_forall _ enum_case_name _
    (fun v hv => match_case_caseline (enum_case_name v) v (enum_case_name_good v))]
  have : List.filterMap (fun b => match_case (pyStrip b)) ["\x7d"] = [] := by decide
  rw [this, List.append_nil]

end SAO
namespace SAO

theorem distinctStrs_cons {s : String} {rest : List String}
    (h : distinctStrs (s :: rest) = true) :
    (∀ t ∈ rest, s ≠ t) ∧ distinctStrs rest = true := by
  rw [distinctStrs, Bool.and_eq_true] at h
  refine ⟨?_, h.2⟩
  intro t ht hst
  have hc := h.1
  rw [Bool.not_eq_true'] at hc
  rw [hst] at hc
  simp at hc
  exact hc ht

theorem dictInsert_fresh {α : Type} (d : List (String × α)) (k : String) (v : α)
    (h : ∀ kv ∈ d, kv.1 ≠ k) : dictInsert d k v = d ++ [(k, v)] := by
  induction d with
  | nil => rfl
  | cons kv rest ih =>
    obtain ⟨k', v'⟩ := kv
    rw [dictInsert, if_neg (h (k', v') (List.mem_cons_self _ _)),
      ih (fun x hx => h x (List.mem_cons_of_mem _ hx)), List.cons_append]

/-- The body fold of `structOfBody`, named for rewriting. -/
def propFoldFn (props : List (String × String)) (b : String) : List (String × String) :=
  match match_prop (pyStrip b) with
  | some (n, t) => dictInsert props n (pyStrip t)
  | none => props

theorem structOfBody_eq (body : List String) :
    structOfBody body = ParsedType.struct (body.foldl propFoldFn []) := rfl

theorem propFoldFn_skip (props : List (String × String)) (b : String)
    (h : match_prop (pyStrip b) = none) : propFoldFn props b = props := by
  unfold propFoldFn
  rw [h]

theorem foldl_propFold_skip (ls : List String) :
    ∀ (acc : List (String × String)),
      (∀ b ∈ ls, match_prop (pyStrip b) = none) →
      List.foldl propFoldFn acc ls = acc := by
  induction ls with
  | nil => intro acc _; rfl
  | cons b ls ih =>
    intro acc h
    rw [List.foldl_cons, propFoldFn_skip acc b (h b (List.mem_cons_self b ls))]
    exact ih acc (fun x hx => h x (List.mem_cons_of_mem b hx))

/-- The space-stripped head of a `///` doc-comment line. -/
theorem dropSpaces_desc (d : String) :
    dropSpaces ("    /// " ++ d).data = '/' :: ('/' :: '/' :: ' ' :: d.data) := by
  have hdata : ("    /// " ++ d).data =
      [' ',' ',' ',' '] ++ ('/' :: '/' :: '/' :: ' ' :: d.data) := by
    simp [String.data_append]
  rw [dropSpaces, hdata, List.dropWhile_append]
  simp [List.dropWhile, show pySpaceChar ' ' = true from by decide,
    show pySpaceChar '/' = false from by decide]

/-- The space-stripped head of an emitted CodingKeys `case` line. -/
theorem dropSpaces_ckcase (X : String) :
    dropSpaces ("        case " ++ X).data = 'c' :: ('a' :: 's' :: 'e' :: ' ' :: X.data) := by
  have hdata : ("        case " ++ X).data =
      [' ',' ',' ',' ',' ',' ',' ',' '] ++ ('c' :: 'a' :: 's' :: 'e' :: ' ' :: X.data) := by
    simp [String.data_append]
  rw [dropSpaces, hdata, List.dropWhile_append]
  simp [List.dropWhile, show pySpaceChar ' ' = true from by decide,
    show pySpaceChar 'c' = false from by decide]

/-- One per-property segment of `struct_prop_lines`. -/
def prop_segment (spec schema : Json) (kv : String × Json) : List String :=
  (if clean_description (descriptionOf kv.2) ≠ "" then
    ["    /// " ++ clean_description (descriptionOf kv.2)] else []) ++
  ["    public let " ++ (swift_property_name kv.1 ++ (": " ++
     prop_type_text spec schema kv.1 kv.2)),
   ""]

theorem struct_prop_lines_eq (spec schema : Json) :
    struct_prop_lines spec schema =
      ((propertiesOf schema).map (prop_segment spec schema)).flatten := rfl

theorem foldl_prop_segments (spec schema : Json) :
    ∀ (props : List (String × Json)) (acc : List (String × String)),
      (∀ p ∈ props, goodIdentStr (swift_property_name p.1) = true ∧
        goodTypeText (prop_type_text spec schema p.1 p.2) = true) →
      (∀ p ∈ props, ∀ kv ∈ acc, kv.1 ≠ swift_property_name p.1) →
      distinctStrs (props.map (fun p => swift_property_name p.1)) = true →
      List.foldl propFoldFn acc ((props.map (prop_segment spec schema)).flatten) =
        acc ++ props.map (fun p =>
          (swift_property_name p.1, prop_type_text spec schema p.1 p.2)) := by
  intro props
  induction props with
  | nil => intro acc _ _ _; simp
  | cons p ps ih =>
    intro acc hgood hfresh hdist
    obtain ⟨hgp, hgt⟩ := hgood p (List.mem_cons_self p ps)
    rw [List.map_cons, List.flatten_cons, List.foldl_append]
    have hseg : List.foldl propFoldFn acc (prop_segment spec schema p) =
        acc ++ [(swift_property_name p.1, prop_type_text spec schema p.1 p.2)] := by
      unfold prop_segment
      rw [List.foldl_append]
      have hdesc : List.foldl propFoldFn acc
          (if clean_description (descriptionOf p.2) ≠ "" then
            ["    /// " ++ clean_description (descriptionOf p.2)] else []) = acc := by
        split
        · rw [List.foldl_cons, List.foldl_nil, propFoldFn_skip]
          exact match_prop_strip_none (dropSpaces_desc _) (by decide) (by decide)
        · rfl
      rw [hdesc, List.foldl_cons, List.foldl_cons, List.foldl_nil]
      have hlet : propFoldFn acc ("    public let " ++ (swift_property_name p.1 ++ (": " ++
          prop_type_text spec schema p.1 p.2))) =
          acc ++ [(swift_property_name p.1, prop_type_text spec schema p.1 p.2)] := by
        unfold propFoldFn
        rw [match_prop_letline _ _ hgp hgt]
        dsimp only
        rw [pyStrip_type hgt,
          dictInsert_fresh _ _ _ (fun kv hkv => hfresh p (List.mem_cons_self p ps) kv hkv)]
      rw [hlet, propFoldFn_skip _ "" (by decide)]
    rw [hseg]
    rw [List.map_cons] at hdist
    obtain ⟨hne, hdist'⟩ := distinctStrs_cons hdist
    rw [ih (acc ++ [(swift_property_name p.1, prop_type_text spec schema p.1 p.2)])
      (fun q hq => hgood q (List.mem_cons_of_mem p hq))
      ?_ hdist']
    · simp
    · intro q hq kv hkv
      rcases List.mem_append.mp hkv with hkv | hkv
      · exact hfresh q (List.mem_cons_of_mem p hq) kv hkv
      · have : kv = (swift_property_name p.1, prop_type_text spec schema p.1 p.2) := by
          simpa using hkv
        rw [this]
        exact hne _ (List.mem_map_of_mem (fun r => swift_property_name r.1) hq)

end SAO
namespace SAO

theorem plain_of_goodType {T : String} (h : goodTypeText T = true) : plainStr T = true := by
  cases htd : T.data with
  | nil => simp [plainStr, htd]
  | cons c cs =>
    obtain ⟨hall, -, -⟩ := goodTypeText_facts htd h
    exact plainStr_of_safe (by
      rw [htd]
      exact List.all_eq_true.mpr (fun d hd => (hall d hd).1))

theorem good_struct_parts {spec : Json} {name : String} {schema : Json}
    (h : good_struct_schema spec name schema = true) :
    goodIdentStr (swift_class_name name) = true ∧
    goodRawText name = true ∧
    distinctStrs ((propertiesOf schema).map (fun p => swift_property_name p.1)) = true ∧
    ∀ p ∈ propertiesOf schema,
      goodIdentStr (swift_property_name p.1) = true ∧ goodRawText p.1 = true ∧
      goodTypeText (prop_type_text spec schema p.1 p.2) = true ∧
      goodRawText (clean_description (descriptionOf p.2)) = true := by
  simp only [good_struct_schema, Bool.and_eq_true, List.all_eq_true] at h
  obtain ⟨⟨⟨⟨hsw, hraw⟩, -⟩, hdist⟩, hall⟩ := h
  refine ⟨hsw, hraw, hdist, ?_⟩
  intro p hp
  have hq := hall p hp
  simp only [Bool.and_eq_true] at hq
  exact ⟨hq.1.1.1, hq.1.1.2, hq.1.2, hq.2⟩

theorem struct_prop_lines_delta (spec schema : Json)
    (hforall : ∀ p ∈ propertiesOf schema,
      goodIdentStr (swift_property_name p.1) = true ∧ goodRawText p.1 = true ∧
      goodTypeText (prop_type_text spec schema p.1 p.2) = true ∧
      goodRawText (clean_description (descriptionOf p.2)) = true) :
    ∀ l ∈ struct_prop_lines spec schema, braceDelta l = 0 := by
  rw [struct_prop_lines_eq]
  intro l hl
  rw [List.mem_flatten] at hl
  obtain ⟨seg, hseg, hlseg⟩ := hl
  rw [List.mem_map] at hseg
  obtain ⟨p, hp, rfl⟩ := hseg
  obtain ⟨hgi, hgr, hgt, hgd⟩ := hforall p hp
  unfold prop_segment at hlseg
  rw [List.mem_append] at hlseg
  rcases hlseg with hd | hrest
  · split at hd
    · simp only [List.mem_singleton] at hd
      subst hd
      exact braceDelta_of_plain (plainStr_append (by decide) (plain_of_goodRaw hgd))
    · cases hd
  · simp only [List.mem_cons, List.mem_singleton, List.not_mem_nil, or_false] at hrest
    rcases hrest with rfl | rfl
    · exact braceDelta_of_plain (plainStr_append (by decide)
        (plainStr_append (plain_of_goodIdent hgi)
          (plainStr_append (by decide) (plain_of_goodType hgt))))
    · decide

/-- One CodingKeys `case` line of `struct_ck_lines`. -/
def ck_line (kv : String × Json) : String :=
  if swift_property_name kv.1 ≠ kv.1 then
    "        case " ++ (swift_property_name kv.1 ++ (" = \"" ++ (kv.1 ++ "\"")))
  else "        case " ++ swift_property_name kv.1

theorem struct_ck_lines_eq (schema : Json) :
    struct_ck_lines schema =
      if coding_keys_needed schema then
        "    private enum CodingKeys: String, CodingKey \x7b" ::
          ((propertiesOf schema).map ck_line ++ ["    \x7d", ""])
      else [] := rfl

theorem ck_line_plain {kv : String × Json}
    (hgi : goodIdentStr (swift_property_name kv.1) = true)
    (hgr : goodRawText kv.1 = true) : plainStr (ck_line kv) = true := by
  unfold ck_line
  split
  · exact plainStr_append (by decide) (plainStr_append (plain_of_goodIdent hgi)
      (plainStr_append (by decide) (plainStr_append (plain_of_goodRaw hgr) (by decide))))
  · exact plainStr_append (by decide) (plain_of_goodIdent hgi)

theorem ck_line_prop_none (kv : String × Json) : match_prop (pyStrip (ck_line kv)) = none := by
  unfold ck_line
  split
  · exact match_prop_strip_none (dropSpaces_ckcase _) (by decide) (by decide)
  · exact match_prop_strip_none (dropSpaces_ckcase _) (by decide) (by decide)

theorem parse_go_struct_block (spec : Json) (name : String) (schema : Json)
    (rest : List String) (types : List (String × ParsedType))
    (h : good_struct_schema spec name schema = true) :
    parse_go (generate_struct_lines spec name schema ++ rest) ParseState.top types =
      parse_go rest ParseState.top
        (dictInsert types (swift_class_name name)
          (ParsedType.struct ((propertiesOf schema).map (fun p =>
            (swift_property_name p.1, prop_type_text spec schema p.1 p.2))))) := by
  obtain ⟨hSW, hname, hdist, hforall⟩ := good_struct_parts h
  have hlines : generate_struct_lines spec name schema ++ rest =
      ("/// Generated model for " ++ name) ::
      ("public struct " ++ (swift_class_name name ++ (": " ++
        (struct_conformance spec schema ++ " \x7b")))) ::
      (struct_prop_lines spec schema ++ (struct_ck_lines schema ++
        ("\x7d" :: "" :: rest))) := by
    unfold generate_struct_lines
    simp [List.cons_append, List.nil_append, List.append_assoc]
  rw [hlines]
  have hd1 : ("/// Generated model for " ++ name).data =
      '/' :: ("// Generated model for ".data ++ name.data) := by
    simp [String.data_append]
  rw [parse_go_top_skip _ _ types
    (match_struct_head_none_head hd1 (by decide) (by decide))
    (match_enum_head_none_head hd1 (by decide) (by decide))]
  have hm2 : match_struct_head ("public struct " ++ (swift_class_name name ++ (": " ++
      (struct_conformance spec schema ++ " \x7b")))) = some (swift_class_name name) :=
    match_struct_head_decl _ _ hSW
  have hc2 : containsChar ("public struct " ++ (swift_class_name name ++ (": " ++
      (struct_conformance spec schema ++ " \x7b")))) '\x7b' = true := by
    rw [containsChar_append, containsChar_append, containsChar_append, containsChar_append]
    simp [show containsChar " \x7b" '\x7b' = true from by decide]
  have hb2 : braceDelta ("public struct " ++ (swift_class_name name ++ (": " ++
      (struct_conformance spec schema ++ " \x7b")))) = 1 := by
    rw [braceDelta_append, braceDelta_append, braceDelta_append, braceDelta_append,
      braceDelta_of_plain (plain_of_goodIdent hSW),
      braceDelta_of_plain (plain_conformance spec schema),
      show braceDelta "public struct " = 0 from by decide,
      show braceDelta ": " = 0 from by decide,
      show braceDelta " \x7b" = 1 from by decide]
    ring
  rw [parse_go, parse_step_top_struct _ types _ hm2 hc2, hb2]
  rw [parse_go_body_accum _ _ types true _ 1 []
    (struct_prop_lines_delta spec schema hforall) (by norm_num)]
  have hgood1 : ∀ p ∈ propertiesOf schema,
      goodIdentStr (swift_property_name p.1) = true ∧
      goodTypeText (prop_type_text spec schema p.1 p.2) = true :=
    fun p hp => ⟨(hforall p hp).1, (hforall p hp).2.2.1⟩
  by_cases hck : coding_keys_needed schema
  · rw [struct_ck_lines_eq, if_pos hck]
    simp only [List.cons_append, List.nil_append, List.append_assoc]
    have hbh : braceDelta "    private enum CodingKeys: String, CodingKey \x7b" = 1 := by
      decide
    rw [parse_go_body_stay _ _ types true _ 1 _ (by rw [hbh]; norm_num)]
    rw [hbh]
    rw [parse_go_body_accum _ _ types true _ (1 + 1) _
      (by
        intro l hl
        rw [List.mem_map] at hl
        obtain ⟨p, hp, rfl⟩ := hl
        exact braceDelta_of_plain (ck_line_plain (hforall p hp).1 (hforall p hp).2.1))
      (by norm_num)]
    rw [parse_go_body_stay _ _ types true _ _ _ (by decide)]
    rw [parse_go_body_stay _ _ types true _ _ _ (by decide)]
    rw [parse_go_body_close _ _ types true _ _ _ (by decide)]
    rw [parse_go_top_skip _ _ _ (by decide) (by decide)]
    congr 1
    unfold registerDecl
    rw [if_pos rfl]
    congr 1
    have hrev : ("\x7d" :: "" :: "    \x7d" ::
        (((propertiesOf schema).map ck_line).reverse ++
          ("    private enum CodingKeys: String, CodingKey \x7b" ::
            ((struct_prop_lines spec schema).reverse ++ [])))).reverse =
        struct_prop_lines spec schema ++
          ("    private enum CodingKeys: String, CodingKey \x7b" ::
            ((propertiesOf schema).map ck_line ++ ["    \x7d", "", "\x7d"])) := by
      simp
    rw [hrev, structOfBody_eq]
    congr 1
    rw [List.foldl_append, struct_prop_lines_eq,
      foldl_prop_segments spec schema (propertiesOf schema) [] hgood1
        (by intro p hp kv hkv; cases hkv) hdist,
      List.nil_append]
    apply foldl_propFold_skip
    intro b hb
    rcases List.mem_cons.mp hb with rfl | hb
    · decide
    rcases List.mem_append.mp hb with hb | hb
    · rw [List.mem_map] at hb
      obtain ⟨p, hp, rfl⟩ := hb
      exact ck_line_prop_none p
    · simp only [List.mem_cons, List.mem_singleton, List.not_mem_nil, or_false] at hb
      rcases hb with rfl | rfl | rfl <;> decide
  · rw [struct_ck_lines_eq, if_neg hck, List.nil_append]
    rw [parse_go_body_close _ _ types true _ 1 _ (by decide)]
    rw [parse_go_top_skip _ _ _ (by decide) (by decide)]
    congr 1
    unfold registerDecl
    rw [if_pos rfl]
    congr 1
    have hrev : ("\x7d" :: ((struct_prop_lines spec schema).reverse ++ [])).reverse =
        struct_prop_lines spec schema ++ ["\x7d"] := by
      simp
    rw [hrev, structOfBody_eq]
    congr 1
    rw [List.foldl_append, struct_prop_lines_eq,
      foldl_prop_segments spec schema (propertiesOf schema) [] hgood1
        (by intro p hp kv hkv; cases hkv) hdist,
      List.nil_append]
    apply foldl_propFold_skip
    intro b hb
    simp only [List.mem_singleton] at hb
    subst hb
    decide

end SAO
namespace SAO

/-- The individual lines of the generated models file, before joining. -/
def all_model_lines (spec : Json) : List String :=
  ["// Generated Swift Models from OpenAPI Specification",
   "// DO NOT EDIT: This file is automatically generated",
   "",
   "import Foundation",
   ""]
  ++ (((schemasOf spec).filterMap (fun kv =>
       if isEnumSchema kv.2 then some (generate_enum_lines kv.1 kv.2) else none)).flatten)
  ++ (((schemasOf spec).filterMap (fun kv =>
       if isStructSchema kv.2 then some (generate_struct_lines spec kv.1 kv.2) else none)).flatten)

theorem filterMap_if_map {α β γ : Type} (c : α → Bool) (g : α → β) (f : β → γ)
    (l : List α) :
    (l.filterMap (fun x => if c x then some (g x) else none)).map f =
      l.filterMap (fun x => if c x then some (f (g x)) else none) := by
  induction l with
  | nil => rfl
  | cons x xs ih =>
    rw [List.filterMap_cons, List.filterMap_cons]
    by_cases hc : c x
    · rw [if_pos hc, if_pos hc, List.map_cons, ih]
    · rw [if_neg hc, if_neg hc, ih]

theorem map_join_singletons (L : List String) :
    (L.map (fun s => ([s] : List String))).map join_nl = L := by
  induction L with
  | nil => rfl
  | cons s L ih => simp only [List.map_cons, ih, join_nl]

theorem flatten_map_singleton (L : List String) :
    (L.map (fun s => ([s] : List String))).flatten = L := by
  induction L with
  | nil => rfl
  | cons s L ih => simp only [List.map_cons, List.flatten_cons, ih, List.singleton_append]

theorem mem_filterMap_if {α β : Type} {c : α → Bool} {g : α → β} {l : List α} {b : β}
    (hb : b ∈ l.filterMap (fun x => if c x then some (g x) else none)) :
    ∃ x ∈ l, c x = true ∧ b = g x := by
  rw [List.mem_filterMap] at hb
  obtain ⟨x, hx, hfx⟩ := hb
  by_cases hc : c x
  · rw [if_pos hc] at hfx
    exact ⟨x, hx, hc, (Option.some.inj hfx).symm⟩
  · rw [if_neg hc] at hfx
    cases hfx

theorem generate_enum_lines_shape (name : String) (schema : Json) :
    generate_enum_lines name schema =
      ("/// Generated enum for " ++ name) ::
      ("public enum " ++ (swift_class_name name ++ ": String, Codable, CaseIterable \x7b")) ::
      ((((jItems ((jLookup (jFields schema) "enum").getD (Json.arr []))).map jStr).map
          (fun value =>
            "    case " ++ (enum_case_name value ++ (" = \"" ++ (value ++ "\""))))) ++
        ["\x7d", ""]) := rfl

theorem generate_struct_lines_shape (spec : Json) (name : String) (schema : Json) :
    generate_struct_lines spec name schema =
      ("/// Generated model for " ++ name) ::
      ("public struct " ++ (swift_class_name name ++ (": " ++
        (struct_conformance spec schema ++ " \x7b")))) ::
      (struct_prop_lines spec schema ++ (struct_ck_lines schema ++ ["\x7d", ""])) := by
  unfold generate_struct_lines
  simp [List.cons_append, List.nil_append, List.append_assoc]

theorem generate_enum_lines_ne_nil (name : String) (schema : Json) :
    generate_enum_lines name schema ≠ [] := by
  rw [generate_enum_lines_shape]
  simp

theorem generate_struct_lines_ne_nil (spec : Json) (name : String) (schema : Json) :
    generate_struct_lines spec name schema ≠ [] := by
  rw [generate_struct_lines_shape]
  simp

theorem generate_enum_lines_last (name : String) (schema : Json) :
    (generate_enum_lines name schema).getLast? = some "" := by
  rw [generate_enum_lines_shape]
  have hsh : ("/// Generated enum for " ++ name) ::
      ("public enum " ++ (swift_class_name name ++ ": String, Codable, CaseIterable \x7b")) ::
      ((((jItems ((jLookup (jFields schema) "enum").getD (Json.arr []))).map jStr).map
          (fun value =>
            "    case " ++ (enum_case_name value ++ (" = \"" ++ (value ++ "\""))))) ++
        ["\x7d", ""]) =
      (("/// Generated enum for " ++ name) ::
       ("public enum " ++ (swift_class_name name ++ ": String, Codable, CaseIterable \x7b")) ::
       (((jItems ((jLookup (jFields schema) "enum").getD (Json.arr []))).map jStr).map
          (fun value =>
            "    case " ++ (enum_case_name value ++ (" = \"" ++ (value ++ "\"")))))) ++
      ["\x7d", ""] := by
    simp
  rw [hsh, List.getLast?_append_of_ne_nil _ (by simp)]
  rfl

theorem generate_struct_lines_last (spec : Json) (name : String) (schema : Json) :
    (generate_struct_lines spec name schema).getLast? = some "" := by
  rw [generate_struct_lines_shape]
  have hsh : ("/// Generated model for " ++ name) ::
      ("public struct " ++ (swift_class_name name ++ (": " ++
        (struct_conformance spec schema ++ " \x7b")))) ::
      (struct_prop_lines spec schema ++ (struct_ck_lines schema ++ ["\x7d", ""])) =
      (("/// Generated model for " ++ name) ::
       ("public struct " ++ (swift_class_name name ++ (": " ++
         (struct_conformance spec schema ++ " \x7b")))) ::
       (struct_prop_lines spec schema ++ struct_ck_lines schema)) ++
      ["\x7d", ""] := by
    simp
  rw [hsh, List.getLast?_append_of_ne_nil _ (by simp)]
  rfl

theorem flatten_getLast (blocks : List (List String)) :
    blocks ≠ [] → (∀ b ∈ blocks, b.getLast? = some "") →
    blocks.flatten.getLast? = some "" := by
  induction blocks with
  | nil => intro h _; exact absurd rfl h
  | cons b bs ih =>
    intro _ h
    cases hbs : bs with
    | nil =>
      subst hbs
      simp only [List.flatten_cons, List.flatten_nil, List.append_nil]
      exact h b (List.mem_cons_self b [])
    | cons b2 bs2 =>
      rw [← hbs]
      have hbsne : bs ≠ [] := by rw [hbs]; simp
      have htail := ih hbsne (fun x hx => h x (List.mem_cons_of_mem b hx))
      have hne : bs.flatten ≠ [] := by
        intro hz
        rw [hz] at htail
        cases htail
      rw [List.flatten_cons, List.getLast?_append_of_ne_nil _ hne, htail]

theorem generate_models_eq_join (spec : Json) :
    generate_models spec = join_nl (all_model_lines spec) := by
  have hblocks : generate_models_lines spec =
      ((["// Generated Swift Models from OpenAPI Specification",
         "// DO NOT EDIT: This file is automatically generated", "",
         "import Foundation", ""].map (fun s => ([s] : List String))) ++
       ((schemasOf spec).filterMap (fun kv =>
         if isEnumSchema kv.2 then some (generate_enum_lines kv.1 kv.2) else none)) ++
       ((schemasOf spec).filterMap (fun kv =>
         if isStructSchema kv.2 then some (generate_struct_lines spec kv.1 kv.2) else none))).map
        join_nl := by
    show (["// Generated Swift Models from OpenAPI Specification",
         "// DO NOT EDIT: This file is automatically generated", "",
         "import Foundation", ""] ++
       ((schemasOf spec).filterMap (fun kv =>
         if isEnumSchema kv.2 then some (generate_enum kv.1 kv.2) else none)) ++
       ((schemasOf spec).filterMap (fun kv =>
         if isStructSchema kv.2 then some (generate_struct spec kv.1 kv.2) else none))) = _
    rw [List.map_append, List.map_append, map_join_singletons,
      filterMap_if_map (fun kv : String × Json => isEnumSchema kv.2)
        (fun kv : String × Json => generate_enum_lines kv.1 kv.2) join_nl,
      filterMap_if_map (fun kv : String × Json => isStructSchema kv.2)
        (fun kv : String × Json => generate_struct_lines spec kv.1 kv.2) join_nl]
    rfl
  have hne : ∀ b ∈ ((["// Generated Swift Models from OpenAPI Specification",
         "// DO NOT EDIT: This file is automatically generated", "",
         "import Foundation", ""].map (fun s => ([s] : List String))) ++
       ((schemasOf spec).filterMap (fun kv =>
         if isEnumSchema kv.2 then some (generate_enum_lines kv.1 kv.2) else none)) ++
       ((schemasOf spec).filterMap (fun kv =>
         if isStructSchema kv.2 then some (generate_struct_lines spec kv.1 kv.2) else none))),
      b ≠ [] := by
    intro b hb
    rcases List.mem_append.mp hb with hb | hb
    · rcases List.mem_append.mp hb with hb | hb
      · rw [List.mem_map] at hb
        obtain ⟨s, -, rfl⟩ := hb
        simp
      · obtain ⟨kv, -, -, rfl⟩ := mem_filterMap_if hb
        exact generate_enum_lines_ne_nil _ _
    · obtain ⟨kv, -, -, rfl⟩ := mem_filterMap_if hb
      exact generate_struct_lines_ne_nil _ _ _
  unfold generate_models
  rw [hblocks, join_nl_map_join _ hne]
  congr 1
  unfold all_model_lines
  rw [List.flatten_append, List.flatten_append, flatten_map_singleton]

theorem all_model_lines_last (spec : Json) :
    (all_model_lines spec).getLast? = some "" := by
  unfold all_model_lines
  by_cases hs : ((schemasOf spec).filterMap (fun kv =>
      if isStructSchema kv.2 then some (generate_struct_lines spec kv.1 kv.2) else none)) = []
  · rw [hs]
    simp only [List.flatten_nil, List.append_nil]
    by_cases he : ((schemasOf spec).filterMap (fun kv =>
        if isEnumSchema kv.2 then some (generate_enum_lines kv.1 kv.2) else none)) = []
    · rw [he]
      rfl
    · have hlast := flatten_getLast _ he (by
        intro b hb
        obtain ⟨kv, -, -, rfl⟩ := mem_filterMap_if hb
        exact generate_enum_lines_last _ _)
      have hne : ((schemasOf spec).filterMap (fun kv =>
          if isEnumSchema kv.2 then some (generate_enum_lines kv.1 kv.2) else none)).flatten ≠
          [] := by
        intro hz
        rw [hz] at hlast
        cases hlast
      rw [List.getLast?_append_of_ne_nil _ hne, hlast]
  · have hlast := flatten_getLast _ hs (by
      intro b hb
      obtain ⟨kv, -, -, rfl⟩ := mem_filterMap_if hb
      exact generate_struct_lines_last _ _ _)
    have hne : ((schemasOf spec).filterMap (fun kv =>
        if isStructSchema kv.2 then some (generate_struct_lines spec kv.1 kv.2) else none)).flatten ≠
        [] := by
      intro hz
      rw [hz] at hlast
      cases hlast
    rw [List.getLast?_append_of_ne_nil _ hne, hlast]

end SAO
namespace SAO

theorem case_line_plain {v : String} (hv : goodRawText v = true) :
    plainStr ("    case " ++ (enum_case_name v ++ (" = \"" ++ (v ++ "\"")))) = true :=
  plainStr_append (by decide) (plainStr_append (plain_of_goodIdent (enum_case_name_good v))
    (plainStr_append (by decide) (plainStr_append (plain_of_goodRaw hv) (by decide))))

theorem enum_lines_noNl (name : String) (schema : Json)
    (h : good_enum_schema name schema = true) :
    ∀ l ∈ generate_enum_lines name schema, '\n' ∉ l.data := by
  intro l hl
  rw [generate_enum_lines_shape] at hl
  apply noNl_mem
  rcases List.mem_cons.mp hl with rfl | hl
  · exact noNlStr_append _ _ (by decide)
      (noNlStr_of_plain (plain_of_goodRaw (good_enum_raw_name h)))
  rcases List.mem_cons.mp hl with rfl | hl
  · exact noNlStr_append _ _ (by decide)
      (noNlStr_append _ _ (noNlStr_of_plain (plain_of_goodIdent (good_enum_SW h))) (by decide))
  rcases List.mem_append.mp hl with hl | hl
  · rw [List.mem_map] at hl
    obtain ⟨v, hv, rfl⟩ := hl
    exact noNlStr_of_plain (case_line_plain (enum_values_good h v hv))
  · simp only [List.mem_cons, List.mem_singleton, List.not_mem_nil, or_false] at hl
    rcases hl with rfl | rfl <;> decide

theorem struct_lines_noNl (spec : Json) (name : String) (schema : Json)
    (h : good_struct_schema spec name schema = true) :
    ∀ l ∈ generate_struct_lines spec name schema, '\n' ∉ l.data := by
  obtain ⟨hSW, hname, hdist, hforall⟩ := good_struct_parts h
  intro l hl
  rw [generate_struct_lines_shape] at hl
  apply noNl_mem
  rcases List.mem_cons.mp hl with rfl | hl
  · exact noNlStr_append _ _ (by decide) (noNlStr_of_plain (plain_of_goodRaw hname))
  rcases List.mem_cons.mp hl with rfl | hl
  · exact noNlStr_append _ _ (by decide)
      (noNlStr_append _ _ (noNlStr_of_plain (plain_of_goodIdent hSW))
        (noNlStr_append _ _ (by decide)
          (noNlStr_append _ _ (noNlStr_of_plain (plain_conformance spec schema)) (by decide))))
  rcases List.mem_append.mp hl with hl | hl
  · rw [struct_prop_lines_eq, List.mem_flatten] at hl
    obtain ⟨seg, hseg, hlseg⟩ := hl
    rw [List.mem_map] at hseg
    obtain ⟨p, hp, rfl⟩ := hseg
    obtain ⟨hgi, hgr, hgt, hgd⟩ := hforall p hp
    unfold prop_segment at hlseg
    rcases List.mem_append.mp hlseg with hd | hrest
    · split at hd
      · simp only [List.mem_singleton] at hd
        subst hd
        exact noNlStr_append _ _ (by decide) (noNlStr_of_plain (plain_of_goodRaw hgd))
      · cases hd
    · simp only [List.mem_cons, List.mem_singleton, List.not_mem_nil, or_false] at hrest
      rcases hrest with rfl | rfl
      · exact noNlStr_append _ _ (by decide)
          (noNlStr_append _ _ (noNlStr_of_plain (plain_of_goodIdent hgi))
            (noNlStr_append _ _ (by decide) (noNlStr_of_plain (plain_of_goodType hgt))))
      · decide
  rcases List.mem_append.mp hl with hl | hl
  · rw [struct_ck_lines_eq] at hl
    split at hl
    · rcases List.mem_cons.mp hl with rfl | hl
      · decide
      rcases List.mem_append.mp hl with hl | hl
      · rw [List.mem_map] at hl
        obtain ⟨p, hp, rfl⟩ := hl
        exact noNlStr_of_plain (ck_line_plain (hforall p hp).1 (hforall p hp).2.1)
      · simp only [List.mem_cons, List.mem_singleton, List.not_mem_nil, or_false] at hl
        rcases hl with rfl | rfl <;> decide
    · cases hl
  · simp only [List.mem_cons, List.mem_singleton, List.not_mem_nil, or_false] at hl
    rcases hl with rfl | rfl <;> decide

theorem c1_good_parts {spec : Json} (h : c1_good_doc spec = true) :
    distinctStrs ((schemasOf spec).filterMap (fun kv =>
        if isEnumSchema kv.2 then some (swift_class_name kv.1) else none) ++
      (schemasOf spec).filterMap (fun kv =>
        if isStructSchema kv.2 then some (swift_class_name kv.1) else none)) = true ∧
    (∀ kv ∈ schemasOf spec, isEnumSchema kv.2 = true → good_enum_schema kv.1 kv.2 = true) ∧
    (∀ kv ∈ schemasOf spec, isStructSchema kv.2 = true →
      good_struct_schema spec kv.1 kv.2 = true) := by
  rw [c1_good_doc, Bool.and_eq_true] at h
  obtain ⟨hdist, hall⟩ := h
  refine ⟨hdist, ?_, ?_⟩
  · intro kv hkv he
    have hq := List.all_eq_true.mp hall kv hkv
    rw [Bool.and_eq_true] at hq
    have h1 := hq.1
    rw [Bool.or_eq_true] at h1
    rcases h1 with h1 | h1
    · rw [Bool.not_eq_true'] at h1
      rw [he] at h1
      cases h1
    · exact h1
  · intro kv hkv hs
    have hq := List.all_eq_true.mp hall kv hkv
    rw [Bool.and_eq_true] at hq
    have h2 := hq.2
    rw [Bool.or_eq_true] at h2
    rcases h2 with h2 | h2
    · rw [Bool.not_eq_true'] at h2
      rw [hs] at h2
      cases h2
    · exact h2

theorem distinctStrs_of_not_mem {s : String} {rest : List String}
    (h1 : s ∉ rest) (h2 : distinctStrs rest = true) : distinctStrs (s :: rest) = true := by
  rw [distinctStrs, Bool.and_eq_true]
  exact ⟨by simpa using h1, h2⟩

theorem distinctStrs_append {A B : List String} (h : distinctStrs (A ++ B) = true) :
    distinctStrs A = true ∧ distinctStrs B = true ∧ ∀ a ∈ A, ∀ b ∈ B, a ≠ b := by
  induction A with
  | nil => exact ⟨rfl, h, by simp⟩
  | cons a A ih =>
    rw [List.cons_append] at h
    obtain ⟨hne, hrec⟩ := distinctStrs_cons h
    obtain ⟨dA, dB, cross⟩ := ih hrec
    refine ⟨?_, dB, ?_⟩
    · exact distinctStrs_of_not_mem (fun hm => hne a (List.mem_append_left B hm) rfl) dA
    · intro x hx b hb
      rcases List.mem_cons.mp hx with rfl | hx
      · exact hne b (List.mem_append_right A hb)
      · exact cross x hx b hb

end SAO
namespace SAO

theorem name_mem_filterMap {c : (String × Json) → Bool} {l : List (String × Json)}
    {kv : String × Json} (hkv : kv ∈ l) (hc : c kv = true) :
    swift_class_name kv.1 ∈ l.filterMap (fun x =>
      if c x then some (swift_class_name x.1) else none) := by
  rw [List.mem_filterMap]
  exact ⟨kv, hkv, by rw [hc]; rfl⟩

theorem parse_go_enum_pass (schemas : List (String × Json)) :
    ∀ (tail : List String) (types : List (String × ParsedType)),
      (∀ kv ∈ schemas, isEnumSchema kv.2 = true → good_enum_schema kv.1 kv.2 = true) →
      (∀ kv ∈ schemas, isEnumSchema kv.2 = true →
        ∀ t ∈ types, t.1 ≠ swift_class_name kv.1) →
      distinctStrs (schemas.filterMap (fun kv =>
        if isEnumSchema kv.2 then some (swift_class_name kv.1) else none)) = true →
      parse_go ((schemas.filterMap (fun kv =>
          if isEnumSchema kv.2 then some (generate_enum_lines kv.1 kv.2) else none)).flatten ++
          tail) ParseState.top types =
        parse_go tail ParseState.top
          (types ++ schemas.filterMap (fun kv =>
            if isEnumSchema kv.2 then
              some (swift_class_name kv.1, ParsedType.enum
                (sortedSet
                  (((jItems ((jLookup (jFields kv.2) "enum").getD (Json.arr []))).map jStr).map
                    enum_case_name)))
            else none)) := by
  induction schemas with
  | nil => intro tail types _ _ _; simp
  | cons kv rest ih =>
    intro tail types hgood hfresh hdist
    rw [List.filterMap_cons] at hdist ⊢
    rw [List.filterMap_cons]
    by_cases he : isEnumSchema kv.2
    · rw [if_pos he] at hdist ⊢
      rw [if_pos he]
      rw [List.flatten_cons, List.append_assoc]
      rw [parse_go_enum_block kv.1 kv.2 _ types (hgood kv (List.mem_cons_self kv rest) he)]
      rw [dictInsert_fresh _ _ _ (hfresh kv (List.mem_cons_self kv rest) he)]
      obtain ⟨hhead, hdist'⟩ := distinctStrs_cons hdist
      rw [ih _ (types ++ [(swift_class_name kv.1, ParsedType.enum
          (sortedSet
            (((jItems ((jLookup (jFields kv.2) "enum").getD (Json.arr []))).map jStr).map
              enum_case_name)))])
        (fun q hq => hgood q (List.mem_cons_of_mem kv hq))
        ?_ hdist']
      · rw [List.append_assoc, List.singleton_append]
      · intro q hq hqe t ht
        rcases List.mem_append.mp ht with ht | ht
        · exact hfresh q (List.mem_cons_of_mem kv hq) hqe t ht
        · have hteq : t = (swift_class_name kv.1, ParsedType.enum
              (sortedSet
                (((jItems ((jLookup (jFields kv.2) "enum").getD (Json.arr []))).map jStr).map
                  enum_case_name))) := by
            simpa using ht
          rw [hteq]
          exact hhead _ (name_mem_filterMap hq hqe)
    · rw [if_neg he] at hdist ⊢
      rw [if_neg he]
      exact ih tail types (fun q hq => hgood q (List.mem_cons_of_mem kv hq))
        (fun q hq => hfresh q (List.mem_cons_of_mem kv hq)) hdist

theorem parse_go_struct_pass (spec : Json) (schemas : List (String × Json)) :
    ∀ (tail : List String) (types : List (String × ParsedType)),
      (∀ kv ∈ schemas, isStructSchema kv.2 = true →
        good_struct_schema spec kv.1 kv.2 = true) →
      (∀ kv ∈ schemas, isStructSchema kv.2 = true →
        ∀ t ∈ types, t.1 ≠ swift_class_name kv.1) →
      distinctStrs (schemas.filterMap (fun kv =>
        if isStructSchema kv.2 then some (swift_class_name kv.1) else none)) = true →
      parse_go ((schemas.filterMap (fun kv =>
          if isStructSchema kv.2 then some (generate_struct_lines spec kv.1 kv.2) else
            none)).flatten ++ tail) ParseState.top types =
        parse_go tail ParseState.top
          (types ++ schemas.filterMap (fun kv =>
            if isStructSchema kv.2 then
              some (swift_class_name kv.1, ParsedType.struct
                ((propertiesOf kv.2).map (fun p =>
                  (swift_property_name p.1, prop_type_text spec kv.2 p.1 p.2))))
            else none)) := by
  induction schemas with
  | nil => intro tail types _ _ _; simp
  | cons kv rest ih =>
    intro tail types hgood hfresh hdist
    rw [List.filterMap_cons] at hdist ⊢
    rw [List.filterMap_cons]
    by_cases hs : isStructSchema kv.2
    · rw [if_pos hs] at hdist ⊢
      rw [if_pos hs]
      rw [List.flatten_cons, List.append_assoc]
      rw [parse_go_struct_block spec kv.1 kv.2 _ types
        (hgood kv (List.mem_cons_self kv rest) hs)]
      rw [dictInsert_fresh _ _ _ (hfresh kv (List.mem_cons_self kv rest) hs)]
      obtain ⟨hhead, hdist'⟩ := distinctStrs_cons hdist
      rw [ih _ (types ++ [(swift_class_name kv.1, ParsedType.struct
          ((propertiesOf kv.2).map (fun p =>
            (swift_property_name p.1, prop_type_text spec kv.2 p.1 p.2))))])
        (fun q hq => hgood q (List.mem_cons_of_mem kv hq))
        ?_ hdist']
      · rw [List.append_assoc, List.singleton_append]
      · intro q hq hqs t ht
        rcases List.mem_append.mp ht with ht | ht
        · exact hfresh q (List.mem_cons_of_mem kv hq) hqs t ht
        · have hteq : t = (swift_class_name kv.1, ParsedType.struct
              ((propertiesOf kv.2).map (fun p =>
                (swift_property_name p.1, prop_type_text spec kv.2 p.1 p.2)))) := by
            simpa using ht
          rw [hteq]
          exact hhead _ (name_mem_filterMap hq hqs)
    · rw [if_neg hs] at hdist ⊢
      rw [if_neg hs]
      exact ih tail types (fun q hq => hgood q (List.mem_cons_of_mem kv hq))
        (fun q hq => hfresh q (List.mem_cons_of_mem kv hq)) hdist

end SAO
namespace SAO

theorem all_model_lines_noNl {spec : Json} (h : c1_good_doc spec = true) :
    ∀ l ∈ all_model_lines spec, '\n' ∉ l.data := by
  obtain ⟨-, hge, hgs⟩ := c1_good_parts h
  intro l hl
  unfold all_model_lines at hl
  rcases List.mem_append.mp hl with hl | hl
  · rcases List.mem_append.mp hl with hl | hl
    · simp only [List.mem_cons, List.not_mem_nil, or_false] at hl
      rcases hl with rfl | rfl | rfl | rfl | rfl <;> decide
    · rw [List.mem_flatten] at hl
      obtain ⟨b, hb, hlb⟩ := hl
      obtain ⟨kv, hkv, hc, rfl⟩ := mem_filterMap_if hb
      exact enum_lines_noNl _ _ (hge kv hkv hc) l hlb
  · rw [List.mem_flatten] at hl
    obtain ⟨b, hb, hlb⟩ := hl
    obtain ⟨kv, hkv, hc, rfl⟩ := mem_filterMap_if hb
    exact struct_lines_noNl _ _ _ (hgs kv hkv hc) l hlb

/-- **C1 (amended).**  On well-formed schema documents — emitted type and
property names are identifiers and pairwise distinct, raw names, enum values
and cleaned descriptions are line-safe, and emitted property type texts are
free of structural characters and surrounding whitespace — parsing the
generated models file recovers exactly the declarations the generator
produced: every type with its kind, its properties with their exact emitted
type text, and its sorted case-identifier set. -/
theorem roundtrip_on_good_docs (spec : Json) (h : c1_good_doc spec = true) :
    parse_models (generate_models spec) = compiled_decls spec := by
  obtain ⟨hdist, hge, hgs⟩ := c1_good_parts h
  obtain ⟨hdE, hdS, hcross⟩ := distinctStrs_append hdist
  rw [generate_models_eq_join]
  unfold parse_models
  have hLne : all_model_lines spec ≠ [] := by
    unfold all_model_lines
    simp
  rw [pySplitlines_join hLne (fun s hs => all_model_lines_noNl h s hs)
    (all_model_lines_last spec)]
  have hg : (all_model_lines spec).getLast hLne = "" := by
    have h1 := all_model_lines_last spec
    rw [List.getLast?_eq_getLast_of_ne_nil hLne] at h1
    exact Option.some.inj h1
  have hsnoc : (all_model_lines spec).dropLast ++ [""] = all_model_lines spec := by
    rw [← hg]
    exact List.dropLast_append_getLast hLne
  rw [← parse_go_snoc_empty, hsnoc]
  unfold all_model_lines
  rw [List.append_assoc]
  simp only [List.cons_append, List.nil_append]
  rw [parse_go_top_skip _ _ _ (by decide) (by decide)]
  rw [parse_go_top_skip _ _ _ (by decide) (by decide)]
  rw [parse_go_top_skip _ _ _ (by decide) (by decide)]
  rw [parse_go_top_skip _ _ _ (by decide) (by decide)]
  rw [parse_go_top_skip _ _ _ (by decide) (by decide)]
  rw [parse_go_enum_pass (schemasOf spec) _ [] hge
    (fun kv hkv he t ht => absurd ht (List.not_mem_nil t)) hdE]
  simp only [List.nil_append]
  have hfreshS : ∀ kv ∈ schemasOf spec, isStructSchema kv.2 = true →
      ∀ t ∈ (schemasOf spec).filterMap (fun kv =>
        if isEnumSchema kv.2 then
          some (swift_class_name kv.1, ParsedType.enum
            (sortedSet
              (((jItems ((jLookup (jFields kv.2) "enum").getD (Json.arr []))).map jStr).map
                enum_case_name)))
        else none),
      t.1 ≠ swift_class_name kv.1 := by
    intro kv hkv hks t ht
    obtain ⟨x, hx, hc, rfl⟩ := mem_filterMap_if ht
    exact hcross _ (name_mem_filterMap hx hc) _ (name_mem_filterMap hkv hks)
  have hstep := parse_go_struct_pass spec (schemasOf spec) []
    ((schemasOf spec).filterMap (fun kv =>
      if isEnumSchema kv.2 then
        some (swift_class_name kv.1, ParsedType.enum
          (sortedSet
            (((jItems ((jLookup (jFields kv.2) "enum").getD (Json.arr []))).map jStr).map
              enum_case_name)))
      else none))
    hgs hfreshS hdS
  rw [List.append_nil] at hstep
  rw [hstep]
  rfl

/-- A well-formed demonstration document: one string-enum schema and one
object schema with a required and an optional property. -/
def c1demoDoc : Json :=
  Json.obj [
    ("components", Json.obj [("schemas", Json.obj [
      ("response.status", Json.obj [
        ("type", Json.str "string"),
        ("enum", Json.arr [Json.str "in_progress", Json.str "completed"])]),
      ("ResponsesRequest", Json.obj [
        ("type", Json.str "object"),
        ("properties", Json.obj [
          ("model_name", Json.obj [("type", Json.str "string")]),
          ("count", Json.obj [("type", Json.str "integer")])]),
        ("required", Json.arr [Json.str "model_name"])])])])]

/-- Witness for the amended C1 round-trip theorem at a concrete document. -/
theorem roundtrip_on_good_docs_witness :
    c1_good_doc c1demoDoc = true ∧
    parse_models (generate_models c1demoDoc) = compiled_decls c1demoDoc :=
  ⟨by decide, roundtrip_on_good_docs c1demoDoc (by decide)⟩

end SAO
